import Mathlib

/-!
Shallow embedding of the `certmanager` repository (files
`src/certmanager/db.py` and `src/certmanager/certauthority.py`).

Keys and certificates are identified by natural numbers; encoded byte
strings are modelled by the inductive type `Bytes`, which records which
object a well-formed encoding denotes and has a `corrupt` constructor
for bytes that decode to nothing.  The cryptographic helpers
(`crypto.py` is not part of the sources) are modelled from the spec.
-/

set_option autoImplicit false

/-- Modelled from the spec: the byte strings that can live in a store.
`crypto.py` is not in the sources, so encodings are abstract: a
well-formed encoding remembers the key or certificate it encodes, and
`corrupt` stands for bytes no decoder accepts. -/
inductive Bytes where
  | keyDer (k : Nat)
  | keyPem (k : Nat)
  | certDer (c : Nat)
  | certPem (c : Nat)
  | corrupt (n : Nat)
deriving DecidableEq, Repr

/-- Modelled from the spec: `crypto.key_to_der`. -/
def key_to_der (k : Nat) : Bytes := .keyDer k

/-- Modelled from the spec: `crypto.key_to_pem`. -/
def key_to_pem (k : Nat) : Bytes := .keyPem k

/-- Modelled from the spec: `crypto.cert_to_pem`. -/
def cert_to_pem (c : Nat) : Bytes := .certPem c

/-- Modelled from the spec: `cert.public_bytes(serialization.Encoding.DER)`. -/
def cert_to_der (c : Nat) : Bytes := .certDer c

/-- Modelled from the spec: `Key.from_der`; decoding fails (Python raises
`ValueError`, here `none`) on anything but a key DER encoding. -/
def keyFromDer : Bytes → Option Nat
  | .keyDer k => some k
  | _ => none

/-- Modelled from the spec: `Key.from_pem` / `key_from_pem`. -/
def keyFromPem : Bytes → Option Nat
  | .keyPem k => some k
  | _ => none

/-- Modelled from the spec: `cert_from_der`. -/
def certFromDer : Bytes → Option Nat
  | .certDer c => some c
  | _ => none

/-- Modelled from the spec: `cert_from_pem`. -/
def certFromPem : Bytes → Option Nat
  | .certPem c => some c
  | _ => none

/-- Python's `f"{name}"` on an optional string: `None` prints as `"None"`. -/
def pyStr : Option String → String
  | none => "None"
  | some s => s

/-! ## The relational backend (`SqliteKeyStore`) -/

/-- State of the sqlite database: the three tables touched by the code
(`ssl_wildcards` is never used).  A row's id is its position + 1, matching
`AUTOINCREMENT` ids / `lastrowid`. -/
structure SqliteState where
  private_keys : List (Option String × Bytes)
  certificates : List (Option String × Nat × Bytes)
  ssl_domains : List (String × Nat)
deriving DecidableEq, Repr

/-- Fetch the row with `AUTOINCREMENT` id `i` (ids start at 1). -/
def rowGet {α : Type} (l : List α) : Nat → Option α
  | 0 => none
  | n + 1 => l.get? n

namespace SqliteKeyStore

/-- `SqliteKeyStore.save_key`: insert `(name, key_to_der key)` into
`private_keys`, commit, return `lastrowid`. -/
def save_key (st : SqliteState) (key : Nat) (name : Option String) :
    SqliteState × Nat :=
  ({ st with private_keys := st.private_keys ++ [(name, key_to_der key)] },
   st.private_keys.length + 1)

/-- `SqliteKeyStore.save_cert`: insert the certificate row, then one
`ssl_domains` row per domain, commit, return the certificate's id. -/
def save_cert (st : SqliteState) (private_key_id : Nat) (cert : Nat)
    (domains : List String) (name : Option String) : SqliteState × Nat :=
  let cert_id := st.certificates.length + 1
  ({ st with
      certificates := st.certificates ++ [(name, private_key_id, cert_to_der cert)],
      ssl_domains := st.ssl_domains ++ domains.map (fun d => (d, cert_id)) },
   cert_id)

/-- One candidate row of the lookup join: a `ssl_domains` row matching the
requested domain contributes a result only when its certificate row and
that row's key row both exist. -/
def joinOne (st : SqliteState) (domain : String) (r : String × Nat) :
    Option (Nat × Bytes × Bytes) :=
  if r.1 = domain then
    match rowGet st.certificates r.2 with
    | none => none
    | some c =>
      match rowGet st.private_keys c.2.1 with
      | none => none
      | some p => some (r.2, p.2, c.2.2)
  else none

/-- The `SELECT ... FROM ssl_domains s JOIN certificates c JOIN private_keys p
WHERE s.domain = ?` of `get_cert`, followed by `fetchone()`.  The query has no
`ORDER BY`; sqlite scans `ssl_domains` in rowid (insertion) order, so the first
domain row whose joins succeed is returned. -/
def joinRow (st : SqliteState) (domain : String) : Option (Nat × Bytes × Bytes) :=
  st.ssl_domains.findSome? (joinOne st domain)

/-- `SqliteKeyStore.get_cert`.  There is no exception handler here: if the
stored bytes fail to decode, the `ValueError` raised by `Key.from_der` /
`cert_from_der` propagates to the caller, modelled by `Except.error ()`. -/
def get_cert (st : SqliteState) (domain : String) :
    Except Unit (Option (Nat × Nat × Nat)) :=
  match joinRow st domain with
  | none => .ok none
  | some (cid, keyBytes, certBytes) =>
    match keyFromDer keyBytes, certFromDer certBytes with
    | some k, some c => .ok (some (cid, k, c))
    | _, _ => .error ()

end SqliteKeyStore

/-! ## The filesystem backend (`FilesystemKeyStore`) -/

/-- Read the file named `k` from a directory modelled as an association
list (first entry wins; `fsWrite` keeps names unique). -/
def fsRead (m : List (String × Bytes)) (k : String) : Option Bytes :=
  match m with
  | [] => none
  | (k', b) :: rest => if k' = k then some b else fsRead rest k

/-- Overwrite (or create) the file named `k`. -/
def fsWrite (m : List (String × Bytes)) (k : String) (b : Bytes) :
    List (String × Bytes) :=
  match m with
  | [] => [(k, b)]
  | (k', b') :: rest =>
    if k' = k then (k, b) :: rest else (k', b') :: fsWrite rest k b

/-- State of the filesystem backend: the `keys/` directory (`.key` files,
keyed by name without extension) and the `certs/` directory (`.crt` files). -/
structure FsState where
  keys : List (String × Bytes)
  certs : List (String × Bytes)
deriving DecidableEq, Repr

namespace FilesystemKeyStore

/-- `FilesystemKeyStore.save_key`: write `key_to_pem(key)` to
`keys/<name>.key` and return `name` as the id (Python returns the `name`
argument unchanged, possibly `None`). -/
def save_key (st : FsState) (key : Nat) (name : Option String) :
    FsState × Option String :=
  ({ st with keys := fsWrite st.keys (pyStr name) (key_to_pem key) }, name)

/-- The per-domain loop of `FilesystemKeyStore.save_cert`: for each domain,
copy the key bytes to `keys/<domain>.key` unless the domain equals the key id,
and write the certificate PEM to `certs/<domain>.crt`. -/
def saveCertLoop (private_key_id : Option String) (keyContent certBytes : Bytes) :
    List String → FsState → FsState
  | [], st => st
  | d :: ds, st =>
    let keys' := if private_key_id = some d then st.keys
                 else fsWrite st.keys d keyContent
    saveCertLoop private_key_id keyContent certBytes ds
      { keys := keys', certs := fsWrite st.certs d certBytes }

/-- `FilesystemKeyStore.save_cert`.  Steps: optionally write
`certs/<name>.crt`; read `keys/<private_key_id>.key` (raising, modelled as
`none`, if absent); run the per-domain loop; return `name` if given, else
`domains[0]` (raising if `domains` is empty). -/
def save_cert (st : FsState) (private_key_id : Option String) (cert : Nat)
    (domains : List String) (name : Option String) :
    Option (FsState × Option String) :=
  let st1 := match name with
    | some n => { st with certs := fsWrite st.certs n (cert_to_pem cert) }
    | none => st
  match fsRead st.keys (pyStr private_key_id) with
  | none => none
  | some keyContent =>
    let st2 := saveCertLoop private_key_id keyContent (cert_to_pem cert) domains st1
    match name with
    | some n => some (st2, some n)
    | none =>
      match domains with
      | [] => none
      | d :: _ => some (st2, some d)

/-- `FilesystemKeyStore.get_cert`: read and decode `keys/<domain>.key` and
`certs/<domain>.crt`, each `ValueError` caught and treated as absent; if
either is missing, return `None`, else `(domain, key, cert)` — note the
identifier returned is the queried domain itself. -/
def get_cert (st : FsState) (domain : String) :
    Option (String × Nat × Nat) :=
  let key := match fsRead st.keys domain with
    | some b => keyFromPem b
    | none => none
  let cert := match fsRead st.certs domain with
    | some b => certFromPem b
    | none => none
  match key, cert with
  | some k, some c => some (domain, k, c)
  | _, _ => none

end FilesystemKeyStore

/-! ## Response assembly (`certauthority.py`) -/

/-- `IssuedCert`: a (PEM key, PEM certificate, domain list) bundle as
returned to callers. -/
structure IssuedCert where
  privateKey : Bytes
  certificate : Bytes
  domains : List String
deriving DecidableEq, Repr

/-- `CertificateResponse`: existing bundles plus newly issued bundles. -/
structure CertificateResponse where
  existing : List IssuedCert
  issued : List IssuedCert
deriving DecidableEq, Repr

/-- One step of building `certMap` in `createExistingResponse`: if the id
already has a group, append the host to its domain list, else add a new group
at the end (Python dicts preserve insertion order). -/
def upsertGroup {ι : Type} [DecidableEq ι]
    (m : List (ι × List String × Bytes × Bytes)) (id : ι) (h : String)
    (key cert : Bytes) : List (ι × List String × Bytes × Bytes) :=
  match m with
  | [] => [(id, [h], key, cert)]
  | (i, hs, k, c) :: rest =>
    if i = id then (i, hs ++ [h], k, c) :: rest
    else (i, hs, k, c) :: upsertGroup rest id h key cert

/-- The `certMap` loop of `createExistingResponse`, iterating over the
`existing` dict in insertion order. -/
def buildCertMap {ι : Type} [DecidableEq ι]
    (acc : List (ι × List String × Bytes × Bytes)) :
    List (String × ι × Nat × Nat) → List (ι × List String × Bytes × Bytes)
  | [] => acc
  | (h, (id, k, c)) :: rest =>
    buildCertMap (upsertGroup acc id h (key_to_pem k) (cert_to_pem c)) rest

/-- `createExistingResponse`: group the existing map by certificate
identifier; each group becomes one `IssuedCert` whose domain list collects
all the group's hosts. -/
def createExistingResponse {ι : Type} [DecidableEq ι]
    (existing : List (String × ι × Nat × Nat)) (issued_certs : List IssuedCert) :
    CertificateResponse :=
  let certMap := buildCertMap [] existing
  ⟨certMap.map (fun g => ⟨g.2.2.1, g.2.2.2, g.2.1⟩), issued_certs⟩

/-! ## The issuance orchestrator (`CertAuthority.obtainCert`) -/

/-- Order statuses reported by `order.refresh()` / `order.status`. -/
inductive OrderStatus where
  | pending
  | ready
  | processing
  | valid
  | invalid
deriving DecidableEq, Repr

/-- Observable events of one `obtainCert` call.  `getCertStore` is a local
key-store lookup; everything else is protocol-client or challenge-store
interaction. -/
inductive Ev where
  | getCertStore (domain : String)
  | createOrder (domains : List String)
  | publish (token : Nat)
  | verify (token : Nat)
  | query (token : Nat)
  | finalize
  | refresh
  | downloadCert
  | saveKey
  | saveCert
deriving DecidableEq, Repr

/-- Events that talk to the protocol client (order creation, challenge
verification and polling, finalization, refresh, download). -/
def Ev.isProtocol : Ev → Bool
  | .getCertStore _ => false
  | .publish _ => false
  | _ => true

/-- Challenge publication events: the write to the challenge store together
with the `verify()` trigger for that challenge. -/
def Ev.isPublish : Ev → Bool
  | .publish _ => true
  | .verify _ => true
  | _ => false

/-- Challenge progress queries (`query_progress`). -/
def Ev.isQuery : Ev → Bool
  | .query _ => true
  | _ => false

/-- Order finalization (`order.finalize(csr)`). -/
def Ev.isFinalize : Ev → Bool
  | .finalize => true
  | _ => false

/-- Behaviour of the external world for one `obtainCert` call:
the fresh secp256r1 key, the outcome of `create_authorized_order`
(`none` = rejected), each challenge's `query_progress` answer per polling
round, extra wall-clock time consumed by each round beyond the fixed
3-unit sleeps, the order status seen on the n-th `refresh`, and the
certificate eventually downloaded. -/
structure AcmeWorld where
  freshKey : Nat
  orderChallenges : Option (List Nat)
  queryAns : Nat → Nat → Bool
  extraTime : Nat → Nat
  orderStatus : Nat → OrderStatus
  issuedCert : Nat

/-- State of the challenge-completion poll loop: the pending challenges
(`source`), elapsed wall-clock time since the loop started (the code sets
`end = time.time() + 40`), and the round counter (initialised to 1). -/
structure PollState where
  pending : List Nat
  clock : Nat
  counter : Nat
deriving DecidableEq, Repr

/-- The challenge-completion `while` loop of `obtainCert`, with an explicit
fuel to make the recursion total (`none` = fuel exhausted; the Python loop
always terminates, see the claims).  Each iteration: exit normally when no
challenge is pending; break with a timeout when elapsed time exceeds 40
**and** the counter exceeds 4; otherwise query every pending challenge
(emitting a `query` event each), keep the unconfirmed ones, sleep 3 units
when any remain, and increment the counter.  The boolean result records
whether the loop broke on the timeout. -/
def pollLoop (query : Nat → Nat → Bool) (extra : Nat → Nat) :
    Nat → PollState → Option (PollState × Bool) × List Ev
  | 0, _ => (none, [])
  | fuel + 1, s =>
    if s.pending = [] then (some (s, false), [])
    else if 40 < s.clock ∧ 4 < s.counter then (some (s, true), [])
    else
      let evs := s.pending.map Ev.query
      let sink := s.pending.filter (fun c => !query c s.counter)
      let s' : PollState :=
        ⟨sink, s.clock + extra s.counter + (if sink.isEmpty then 0 else 3),
         s.counter + 1⟩
      let r := pollLoop query extra fuel s'
      (r.1, evs ++ r.2)

/-- Result of one `obtainCert` call.  `raised` models the `ValueError`
thrown on order-creation rejection; `failed` models `(None, error)`;
`res r` models `(response, None)`; `outOfFuel` marks model-fuel
exhaustion (the source recursion has no such bound). -/
inductive ObtainRes where
  | raised
  | failed
  | res (r : CertificateResponse)
  | outOfFuel
deriving DecidableEq, Repr

/-- The inner `obtain_cert(count=5)` recursion of `obtainCert`: sleep,
refresh, then branch on the order status.  Faithful to the source, the
recursive call is `obtain_cert()` — it passes no argument, so `count` is
reset to the default 5 on every recursion.  `fuel` bounds the model's
recursion depth (`outOfFuel` when exhausted). -/
def obtainCertRec {ι : Type} [DecidableEq ι] (w : AcmeWorld)
    (existing : List (String × ι × Nat × Nat)) (missing : List String) :
    Nat → Nat → Nat → ObtainRes × List Ev
  | 0, _, _ => (.outOfFuel, [])
  | fuel + 1, attempt, count =>
    match w.orderStatus attempt with
    | .valid =>
      (.res (createExistingResponse existing
              [⟨key_to_pem w.freshKey, cert_to_pem w.issuedCert, missing⟩]),
       [.refresh, .downloadCert, .saveKey, .saveCert])
    | .processing =>
      if count = 0 then (.failed, [.refresh])
      else
        let r := obtainCertRec w existing missing fuel (attempt + 1) 5
        (r.1, .refresh :: r.2)
    | _ => (.failed, [.refresh])

/-- The host-normalisation at the top of `obtainCert`: a plain string is
wrapped into a one-element list (`if type(host) == str: host = [host]`). -/
def hostList : Sum String (List String) → List String
  | .inl s => [s]
  | .inr l => l

/-- First-occurrence deduplication, as performed by the keys of a Python
dict built in list order. -/
def pyDedup : List String → List String
  | [] => []
  | h :: rest => h :: pyDedup (rest.filter (fun x => x ≠ h))
termination_by l => l.length
decreasing_by
  simp only [List.length_cons]
  exact Nat.lt_succ_of_le (List.length_filter_le _ _)

/-- The `existing` dict: `{h: get_cert(h) for h in host if present}`,
in first-occurrence order with duplicates collapsed. -/
def existingMap {ι : Type} (get : String → Option (ι × Nat × Nat))
    (hosts : List String) : List (String × ι × Nat × Nat) :=
  (pyDedup hosts).filterMap (fun h => (get h).map (fun v => (h, v)))

/-- `CertAuthority.obtainCert`, over an abstract key-store lookup `get` and
an `AcmeWorld`; returns the result together with the trace of observable
events.  Store writes on the success path appear as events only (their
returned ids are not observed by the response). -/
def obtainCert {ι : Type} [DecidableEq ι] (w : AcmeWorld)
    (get : String → Option (ι × Nat × Nat))
    (hostIn : Sum String (List String)) (fuel : Nat) : ObtainRes × List Ev :=
  let host := hostList hostIn
  let lookupEvs := host.map Ev.getCertStore
  let existing := existingMap get host
  let missing := host.filter (fun h => (get h).isNone)
  if missing.isEmpty then
    (.res (createExistingResponse existing []), lookupEvs)
  else
    match w.orderChallenges with
    | none => (.raised, lookupEvs ++ [.createOrder missing])
    | some chals =>
      let pubEvs := chals.flatMap (fun c => [Ev.publish c, Ev.verify c])
      let loop := pollLoop w.queryAns w.extraTime fuel ⟨chals, 0, 1⟩
      match loop.1 with
      | none => (.outOfFuel, lookupEvs ++ [.createOrder missing] ++ pubEvs ++ loop.2)
      | some _ =>
        let rec_ := obtainCertRec w existing missing fuel 0 5
        (rec_.1,
         lookupEvs ++ [.createOrder missing] ++ pubEvs ++ loop.2
           ++ [.finalize] ++ rec_.2)

/-! ## Transaction granularity of the relational backend (C9) -/

/-- One sqlite statement executed by `save_key` / `save_cert`, plus the
`conn.commit()` boundary. -/
inductive SqlStmt where
  | insKey (name : Option String) (content : Bytes)
  | insCert (name : Option String) (privId : Nat) (content : Bytes)
  | insDomain (domain : String) (certId : Nat)
  | commit
deriving DecidableEq, Repr

/-- Apply a non-commit statement to the volatile (in-transaction) state. -/
def applyStmt (vol : SqliteState) : SqlStmt → SqliteState
  | .insKey n b => { vol with private_keys := vol.private_keys ++ [(n, b)] }
  | .insCert n p b => { vol with certificates := vol.certificates ++ [(n, p, b)] }
  | .insDomain d c => { vol with ssl_domains := vol.ssl_domains ++ [(d, c)] }
  | .commit => vol

/-- Run a statement list, tracking the volatile state and the durable
(last-committed) state; `commit` makes the volatile state durable. -/
def runJournal (vol dur : SqliteState) : List SqlStmt → SqliteState × SqliteState
  | [] => (vol, dur)
  | .commit :: rest => runJournal vol vol rest
  | s :: rest => runJournal (applyStmt vol s) dur rest

/-- The durable state visible if the process is interrupted after the first
`k` statements of `stmts`, starting from committed state `base`. -/
def durableAfter (base : SqliteState) (stmts : List SqlStmt) (k : Nat) :
    SqliteState :=
  (runJournal base base (stmts.take k)).2

/-- The statement sequence executed by one `SqliteKeyStore.save_key` call:
one insert, then a single `commit` at the end. -/
def saveKeyScript (key : Nat) (name : Option String) : List SqlStmt :=
  [.insKey name (key_to_der key), .commit]

/-- The statement sequence executed by one `SqliteKeyStore.save_cert` call
on base state `base`: the certificate insert, one domain insert per domain,
then a single `commit` at the end of the call. -/
def saveCertScript (base : SqliteState) (private_key_id : Nat) (cert : Nat)
    (domains : List String) (name : Option String) : List SqlStmt :=
  .insCert name private_key_id (cert_to_der cert)
    :: domains.map (fun d => SqlStmt.insDomain d (base.certificates.length + 1))
    ++ [.commit]

/-! ## Cross-backend call sequences (C1) -/

/-- One key-store API call in a cross-backend call sequence.  `saveCert`
names its key by the index of the earlier `saveKey` call whose returned
identifier the caller passes along (identifier spaces differ between
backends, so calls are identifier-abstracted). -/
inductive Cmd where
  | saveKey (name : Option String) (key : Nat)
  | saveCert (keyIdx : Nat) (cert : Nat) (domains : List String)
deriving DecidableEq, Repr

/-- Run a call sequence against the relational backend, accumulating the
identifiers returned by `save_key`. -/
def runSq : List Cmd → SqliteState → List Nat → SqliteState × List Nat
  | [], st, ids => (st, ids)
  | .saveKey n k :: rest, st, ids =>
    let r := SqliteKeyStore.save_key st k n
    runSq rest r.1 (ids ++ [r.2])
  | .saveCert i c ds :: rest, st, ids =>
    let r := SqliteKeyStore.save_cert st (ids.getD i 0) c ds none
    runSq rest r.1 ids

/-- Run a call sequence against the filesystem backend (`none` when a call
raises, e.g. `save_cert` on a missing key file). -/
def runFs : List Cmd → FsState → List (Option String) →
    Option (FsState × List (Option String))
  | [], st, ids => some (st, ids)
  | .saveKey n k :: rest, st, ids =>
    let r := FilesystemKeyStore.save_key st k n
    runFs rest r.1 (ids ++ [r.2])
  | .saveCert i c ds :: rest, st, ids =>
    match FilesystemKeyStore.save_cert st (ids.getD i none) c ds none with
    | none => none
    | some r => runFs rest r.1 ids

/-- Well-formed call sequences, given the number of keys saved so far:
every `saveCert` references an earlier `saveKey` and passes a non-empty
domain list (and, as the orchestrator does, no certificate name). -/
def wfProg : Nat → List Cmd → Bool
  | _, [] => true
  | n, .saveKey _ _ :: rest => wfProg (n + 1) rest
  | n, .saveCert i _ ds :: rest => decide (i < n) && !ds.isEmpty && wfProg n rest

/-- The relational store right after construction: `_initialize_db` plus the
account key created by `_init_account_key` (key 0 here). -/
def sqInit : SqliteState :=
  ⟨[(some "ACME Account Key", key_to_der 0)], [], []⟩

/-- The filesystem store right after construction: the generated
`keys/acme_account.key`. -/
def fsInit : FsState :=
  ⟨[("acme_account", key_to_pem 0)], []⟩

/-- Present/absent observation on the relational backend (`True` iff
`get_cert` returns a bundle rather than `None` or an exception). -/
def sqHas (st : SqliteState) (d : String) : Bool :=
  match SqliteKeyStore.get_cert st d with
  | .ok (some _) => true
  | _ => false

/-- Present/absent observation on the filesystem backend. -/
def fsHas (st : FsState) (d : String) : Bool :=
  (FilesystemKeyStore.get_cert st d).isSome

/-- The domains covered by a response's bundle list, in order. -/
def flatDomains (l : List IssuedCert) : List String :=
  l.foldr (fun e acc => e.domains ++ acc) []

/-- Projection of a successful orchestrator result to its response. -/
def ObtainRes.getRes : ObtainRes → Option CertificateResponse
  | .res r => some r
  | _ => none

/-! ## Basic lemmas about the store primitives -/

theorem fsRead_fsWrite_self (m : List (String × Bytes)) (k : String) (b : Bytes) :
    fsRead (fsWrite m k b) k = some b := by
  induction m with
  | nil => simp [fsRead, fsWrite]
  | cons e rest ih =>
    by_cases h : e.1 = k
    · simp [fsWrite, fsRead, h]
    · simp [fsWrite, fsRead, h, ih]

theorem fsRead_fsWrite_other (m : List (String × Bytes)) (k k' : String)
    (b : Bytes) (h : k' ≠ k) : fsRead (fsWrite m k' b) k = fsRead m k := by
  induction m with
  | nil => simp [fsRead, fsWrite, h]
  | cons e rest ih =>
    by_cases he : e.1 = k'
    · simp [fsWrite, fsRead, he, h]
    · simp only [fsWrite, fsRead, if_neg he]
      rw [ih]

theorem fsRead_mem {m : List (String × Bytes)} {k : String} {b : Bytes}
    (h : fsRead m k = some b) : (k, b) ∈ m := by
  induction m with
  | nil => simp [fsRead] at h
  | cons e rest ih =>
    obtain ⟨k', b'⟩ := e
    by_cases he : k' = k
    · simp only [fsRead, if_pos he] at h
      injection h with hb
      subst he hb
      exact List.mem_cons_self _ _
    · simp only [fsRead, if_neg he] at h
      exact List.mem_cons_of_mem _ (ih h)

theorem rowGet_mem {α : Type} {l : List α} {i : Nat} {x : α}
    (h : rowGet l i = some x) : x ∈ l := by
  cases i with
  | zero => simp [rowGet] at h
  | succ n => exact List.get?_mem h

theorem rowGet_append {α : Type} {l : List α} (l' : List α) {i : Nat} {x : α}
    (h : rowGet l i = some x) : rowGet (l ++ l') i = some x := by
  cases i with
  | zero => simp [rowGet] at h
  | succ n =>
    simp only [rowGet] at h ⊢
    rw [List.get?_append (List.get?_eq_some.mp h).1]
    exact h

theorem rowGet_append_last {α : Type} (l : List α) (x : α) :
    rowGet (l ++ [x]) (l.length + 1) = some x := by
  simp [rowGet, List.get?_append_right]

/-- Decidable equality for `Except`, used to evaluate `get_cert` results
at concrete inputs. -/
instance {e a : Type} [DecidableEq e] [DecidableEq a] : DecidableEq (Except e a) :=
  fun x y =>
    match x, y with
    | .ok u, .ok v =>
      if h : u = v then .isTrue (congrArg Except.ok h)
      else .isFalse (fun hh => h (Except.ok.inj hh))
    | .error u, .error v =>
      if h : u = v then .isTrue (congrArg Except.error h)
      else .isFalse (fun hh => h (Except.error.inj hh))
    | .ok _, .error _ => .isFalse (fun hh => Except.noConfusion hh)
    | .error _, .ok _ => .isFalse (fun hh => Except.noConfusion hh)

/-! ## C10: a plain string argument behaves as a one-element list -/

/-- C10: `obtainCert` also accepts a single hostname given as a plain string
and then behaves exactly as if it had been called with the one-element list
containing that hostname, returning the same response (and the same event
trace). -/
theorem claimC10 {ι : Type} [DecidableEq ι] (w : AcmeWorld)
    (get : String → Option (ι × Nat × Nat)) (s : String) (fuel : Nat) :
    obtainCert w get (Sum.inl s) fuel = obtainCert w get (Sum.inr [s]) fuel :=
  rfl

/-! ## C4: the relational backend does not implement last-write-wins -/

/-- C4 (code bug): after two successive `save_cert` calls for `"a.com"` on
the relational backend (key 1 with certificate 10, then key 2 with
certificate 20, the second returning identifier 2), `get_cert "a.com"`
still returns the FIRST record `(1, key 1, cert 10)`: `save_cert` never
removes the old `ssl_domains` row and the lookup query has no `ORDER BY`,
so the earliest row wins, contradicting the claimed last-write-wins
invariant (the filesystem backend, by contrast, overwrites per-domain
files, so the two backends even disagree here). -/
theorem claimC4 :
    (SqliteKeyStore.save_cert
        ((SqliteKeyStore.save_cert
            ⟨[(none, key_to_der 1), (none, key_to_der 2)], [], []⟩
            1 10 ["a.com"] none).1) 2 20 ["a.com"] none).2 = 2 ∧
    SqliteKeyStore.get_cert
        (SqliteKeyStore.save_cert
          ((SqliteKeyStore.save_cert
              ⟨[(none, key_to_der 1), (none, key_to_der 2)], [], []⟩
              1 10 ["a.com"] none).1) 2 20 ["a.com"] none).1 "a.com"
      = .ok (some (1, 1, 10)) ∧
    SqliteKeyStore.get_cert
        (SqliteKeyStore.save_cert
          ((SqliteKeyStore.save_cert
              ⟨[(none, key_to_der 1), (none, key_to_der 2)], [], []⟩
              1 10 ["a.com"] none).1) 2 20 ["a.com"] none).1 "a.com"
      ≠ .ok (some (2, 2, 20)) := by
  refine ⟨rfl, by decide, by decide⟩

/-! ## C2: the validity-poll recursion never stops at 5 attempts -/

/-- C2 (code bug): the recursive call in `obtain_cert` is `obtain_cert()`,
which resets `count` to its default 5, so on an order that reports
`processing` on every refresh the `count == 0` bound never fires: for every
model fuel the recursion is still running (it does not perform exactly 5
attempts and then fail — it does not terminate at all at that bound). -/
theorem claimC2 {ι : Type} [DecidableEq ι] (w : AcmeWorld)
    (existing : List (String × ι × Nat × Nat)) (missing : List String)
    (h : ∀ n, w.orderStatus n = .processing) :
    ∀ fuel attempt,
      (obtainCertRec w existing missing fuel attempt 5).1 = ObtainRes.outOfFuel := by
  intro fuel
  induction fuel with
  | zero => intro attempt; rfl
  | succ n ih =>
    intro attempt
    simp only [obtainCertRec, h attempt]
    exact ih (attempt + 1)

/-- Witness for C2 at a concrete always-`processing` world. -/
theorem claimC2_witness :
    (obtainCertRec (ι := Nat)
        ⟨9, some [100], fun _ _ => false, fun _ => 0, fun _ => .processing, 77⟩
        [] ["m.com"] 3 0 5).1 = ObtainRes.outOfFuel :=
  claimC2 _ _ _ (fun _ => rfl) 3 0

/-! ## C3: only the filesystem backend fails closed on decode errors -/

/-- C3 (counterexample): on the relational backend, corrupt certificate
bytes stored for `"z.com"` make `get_cert` raise the decode error
(`Except.error`, the uncaught `ValueError` of `cert_from_der`) instead of
returning the absent indicator: the claim's fail-closed property does not
hold for `SqliteKeyStore`. -/
theorem claimC3_cex :
    SqliteKeyStore.get_cert
        ⟨[(none, key_to_der 1)], [(none, 1, Bytes.corrupt 0)], [("z.com", 1)]⟩
        "z.com" = .error () ∧
    (Except.error () : Except Unit (Option (Nat × Nat × Nat))) ≠ .ok none := by
  exact ⟨by decide, by decide⟩

/-- C3 (amended): the filesystem backend does fail closed — for every store
state and domain, if the stored key bytes or the stored certificate bytes
for that domain cannot be decoded, `get_cert` returns `none` (the decode
`ValueError` is caught), so a subsequent issuance request takes the
missing-domain path. -/
theorem claimC3 (st : FsState) (d : String)
    (h : (∀ b, fsRead st.keys d = some b → keyFromPem b = none) ∨
         (∀ b, fsRead st.certs d = some b → certFromPem b = none)) :
    FilesystemKeyStore.get_cert st d = none := by
  show (match (match fsRead st.keys d with
          | some b => keyFromPem b
          | none => none),
        (match fsRead st.certs d with
          | some b => certFromPem b
          | none => none) with
    | some k, some c => some (d, k, c)
    | _, _ => none) = none
  rcases h with hk | hc
  · have hkey : (match fsRead st.keys d with
        | some b => keyFromPem b
        | none => none) = (none : Option Nat) := by
      cases hkr : fsRead st.keys d with
      | none => rfl
      | some b => exact hk b hkr
    rw [hkey]
  · have hcert : (match fsRead st.certs d with
        | some b => certFromPem b
        | none => none) = (none : Option Nat) := by
      cases hcr : fsRead st.certs d with
      | none => rfl
      | some b => exact hc b hcr
    rw [hcert]
    cases (match fsRead st.keys d with
        | some b => keyFromPem b
        | none => none : Option Nat) with
    | none => rfl
    | some k => rfl

/-- Witness for C3 at a store holding corrupt certificate bytes for
`"z.com"`. -/
theorem claimC3_witness :
    FilesystemKeyStore.get_cert
      ⟨[("z.com", key_to_pem 1)], [("z.com", Bytes.corrupt 0)]⟩ "z.com" = none :=
  claimC3 _ _ (Or.inr (fun b hb => by
    simp only [fsRead, if_pos rfl] at hb
    injection hb with hb2
    rw [← hb2]
    rfl))

/-! ## C5: the challenge-completion poll loop -/

/-- One-step unfolding of `pollLoop` at positive fuel. -/
theorem pollLoop_succ (query : Nat → Nat → Bool) (extra : Nat → Nat)
    (fuel : Nat) (s : PollState) :
    pollLoop query extra (fuel + 1) s =
      if s.pending = [] then (some (s, false), [])
      else if 40 < s.clock ∧ 4 < s.counter then (some (s, true), [])
      else
        let sink := s.pending.filter (fun c => !query c s.counter)
        let s2 : PollState :=
          ⟨sink, s.clock + extra s.counter + (if sink.isEmpty then 0 else 3),
           s.counter + 1⟩
        ((pollLoop query extra fuel s2).1,
         s.pending.map Ev.query ++ (pollLoop query extra fuel s2).2) := rfl

/-- On never-confirming challenges the loop keeps its pending set, adds at
least 3 time units per round, increments the counter, and therefore reaches
the compound break condition within the stated fuel. -/
theorem pollLoop_never_aux (query : Nat → Nat → Bool) (extra : Nat → Nat)
    (hq : ∀ c r, query c r = false) :
    ∀ fuel (s : PollState), s.pending ≠ [] → 41 ≤ s.clock + 3 * fuel →
      5 ≤ s.counter + fuel →
      ∃ t c, (pollLoop query extra (fuel + 1) s).1 = some (⟨s.pending, t, c⟩, true) := by
  intro fuel
  induction fuel with
  | zero =>
    intro s hp hc hn
    refine ⟨s.clock, s.counter, ?_⟩
    rw [pollLoop_succ, if_neg hp, if_pos (by omega : 40 < s.clock ∧ 4 < s.counter)]
  | succ n ih =>
    intro s hp hc hn
    by_cases ht : 40 < s.clock ∧ 4 < s.counter
    · refine ⟨s.clock, s.counter, ?_⟩
      rw [pollLoop_succ, if_neg hp, if_pos ht]
    · have hsink : s.pending.filter (fun c => !query c s.counter) = s.pending :=
        List.filter_eq_self.mpr (fun a _ => by rw [hq a s.counter]; rfl)
      have hne2 : s.pending.isEmpty = false := by
        cases hpp : s.pending with
        | nil => exact absurd hpp hp
        | cons a l => rfl
      obtain ⟨t, c, hrec⟩ :=
        ih ⟨s.pending, s.clock + extra s.counter + 3, s.counter + 1⟩ hp
          (by simp only []; omega) (by simp only []; omega)
      refine ⟨t, c, ?_⟩
      rw [pollLoop_succ, if_neg hp, if_neg ht]
      simp only [hsink, hne2]
      exact hrec

/-- The loop on an empty pending set exits immediately and normally. -/
theorem pollLoop_nil (query : Nat → Nat → Bool) (extra : Nat → Nat) (f : Nat)
    (t c : Nat) :
    pollLoop query extra (f + 1) ⟨[], t, c⟩ = (some (⟨[], t, c⟩, false), []) := by
  rw [pollLoop_succ]
  simp

/-- Universal termination of the poll loop: whatever the challenges answer
and however much extra time each round consumes, the loop returns within
the stated fuel — every round either empties the pending set (next
iteration exits normally) or sleeps 3 units and increments the counter, so
the compound break condition is eventually reached. -/
theorem pollLoop_total_aux (query : Nat → Nat → Bool) (extra : Nat → Nat) :
    ∀ fuel (s : PollState), 41 ≤ s.clock + 3 * fuel → 5 ≤ s.counter + fuel →
      ((pollLoop query extra (fuel + 1) s).1).isSome = true := by
  intro fuel
  induction fuel with
  | zero =>
    intro s hc hn
    rw [pollLoop_succ]
    by_cases hp : s.pending = []
    · rw [if_pos hp]; rfl
    · rw [if_neg hp, if_pos (by omega : 40 < s.clock ∧ 4 < s.counter)]; rfl
  | succ f ih =>
    intro s hc hn
    by_cases hp : s.pending = []
    · rw [pollLoop_succ, if_pos hp]; rfl
    · by_cases ht : 40 < s.clock ∧ 4 < s.counter
      · rw [pollLoop_succ, if_neg hp, if_pos ht]; rfl
      · rw [pollLoop_succ, if_neg hp, if_neg ht]
        by_cases hsink : (s.pending.filter (fun c => !query c s.counter)) = []
        · obtain ⟨f2, hf2⟩ : ∃ f2, f = f2 + 1 ∨ f = 0 := ⟨f - 1, by omega⟩
          rcases hf2 with h0 | h0
          · subst h0
            simp only [hsink]
            rw [pollLoop_nil]
            rfl
          · subst h0
            simp only [hsink]
            rw [pollLoop_nil]
            rfl
        · have hie : (s.pending.filter (fun c => !query c s.counter)).isEmpty
              = false := by
            cases hsp : s.pending.filter (fun c => !query c s.counter) with
            | nil => exact absurd hsp hsink
            | cons a l => rfl
          simp only [hie]
          exact ih ⟨s.pending.filter (fun c => !query c s.counter),
              s.clock + extra s.counter + 3, s.counter + 1⟩
            (by show 41 ≤ s.clock + extra s.counter + 3 + 3 * f; omega)
            (by show 5 ≤ s.counter + 1 + f; omega)

/-- When every pending challenge confirms at some round between the current
counter and `N ≤ 14`, the loop (with the clock driven by its own 3-unit
sleeps) exits normally with an empty pending set: the counter-guarded break
cannot fire before round `N + 1`, and by then nothing is pending. -/
theorem pollLoop_budget_aux (query : Nat → Nat → Bool) (N : Nat) (hN : N ≤ 14) :
    ∀ fuel (s : PollState), s.clock = 3 * (s.counter - 1) → 1 ≤ s.counter →
      s.counter + fuel = N + 2 → s.counter ≤ N + 1 →
      (∀ c ∈ s.pending, ∃ r, s.counter ≤ r ∧ r ≤ N ∧ query c r = true) →
      ∃ s2, (pollLoop query (fun _ => 0) fuel s).1 = some (s2, false) ∧
        s2.pending = [] := by
  intro fuel
  induction fuel with
  | zero =>
    intro s hclock hc1 hsum hle hconf
    omega
  | succ f ih =>
    intro s hclock hc1 hsum hle hconf
    by_cases hp : s.pending = []
    · exact ⟨s, by rw [pollLoop_succ, if_pos hp], hp⟩
    · obtain ⟨c0, hc0⟩ := List.exists_mem_of_ne_nil _ hp
      obtain ⟨r0, hr1, hr2, -⟩ := hconf c0 hc0
      have hcN : s.counter ≤ N := le_trans hr1 hr2
      have hnb : ¬(40 < s.clock ∧ 4 < s.counter) := by
        intro hand
        omega
      by_cases hsink : (s.pending.filter (fun c => !query c s.counter)) = []
      · have hf : 1 ≤ f := by omega
        obtain ⟨f2, hf2⟩ : ∃ f2, f = f2 + 1 := ⟨f - 1, by omega⟩
        subst hf2
        rw [pollLoop_succ, if_neg hp, if_neg hnb]
        simp only [hsink]
        rw [pollLoop_nil]
        exact ⟨_, rfl, rfl⟩
      · have hie : (s.pending.filter (fun c => !query c s.counter)).isEmpty
            = false := by
          cases hsp : s.pending.filter (fun c => !query c s.counter) with
          | nil => exact absurd hsp hsink
          | cons a l => rfl
        rw [pollLoop_succ, if_neg hp, if_neg hnb]
        simp only [hie]
        refine ih ⟨s.pending.filter (fun c => !query c s.counter),
            s.clock + 0 + 3, s.counter + 1⟩
          (by show s.clock + 0 + 3 = 3 * (s.counter + 1 - 1); omega)
          (by show 1 ≤ s.counter + 1; omega)
          (by show s.counter + 1 + f = N + 2; omega)
          (by show s.counter + 1 ≤ N + 1; omega)
          ?_
        intro c hc
        have hcmem := List.mem_filter.mp hc
        obtain ⟨r, hra, hrb, hrc⟩ := hconf c hcmem.1
        have hqf : query c s.counter = false := by
          have h2 := hcmem.2
          cases hq : query c s.counter
          · rfl
          · rw [hq] at h2; cases h2
        have hrne : r ≠ s.counter := by
          intro hh
          rw [hh] at hrc
          rw [hrc] at hqf
          cases hqf
        refine ⟨r, ?_, hrb, hrc⟩
        show s.counter + 1 ≤ r
        omega

/-- C5: (1) challenges that never confirm do not hang the loop — within
fuel 15 it exits via the timeout break; (2) whenever the loop exits via the
break, the elapsed time exceeds the 40-unit budget AND the round counter
exceeds 4 (both conditions are required, so the loop is never aborted on
elapsed time alone during the first 4 rounds); (3) challenges that all
confirm within the budget — each at some round up to any `N ≤ 14`, the last
round the 40-unit / 4-round compound guard lets run under the loop's own
3-unit sleeps — make the loop exit normally (no timeout) with the pending
set empty; (4) the loop terminates on every input: for every answer
pattern, every extra per-round time consumption and every pending set, it
returns within fuel 15. -/
theorem claimC5 :
    (∀ (query : Nat → Nat → Bool) (extra : Nat → Nat) (pending : List Nat),
        (∀ c r, query c r = false) → pending ≠ [] →
        (pollLoop query extra 15 ⟨pending, 0, 1⟩).1.map Prod.snd = some true) ∧
    (∀ (query : Nat → Nat → Bool) (extra : Nat → Nat) (fuel : Nat)
        (s s' : PollState),
        (pollLoop query extra fuel s).1 = some (s', true) →
        40 < s'.clock ∧ 4 < s'.counter) ∧
    (∀ (query : Nat → Nat → Bool) (pending : List Nat) (N : Nat), N ≤ 14 →
        (∀ c ∈ pending, ∃ r, 1 ≤ r ∧ r ≤ N ∧ query c r = true) →
        (pollLoop query (fun _ => 0) (N + 1) ⟨pending, 0, 1⟩).1.map
            (fun p => (p.1.pending, p.2)) = some ([], false)) ∧
    (∀ (query : Nat → Nat → Bool) (extra : Nat → Nat) (pending : List Nat),
        ((pollLoop query extra 15 ⟨pending, 0, 1⟩).1).isSome = true) := by
  refine ⟨?_, ?_, ?_, ?_⟩
  · intro query extra pending hq hp
    obtain ⟨t, c, h⟩ := pollLoop_never_aux query extra hq 14 ⟨pending, 0, 1⟩ hp
      (by show 41 ≤ 0 + 3 * 14; omega) (by show 5 ≤ 1 + 14; omega)
    rw [h]
    rfl
  · intro query extra fuel
    induction fuel with
    | zero => intro s s' h; simp [pollLoop] at h
    | succ n ih =>
      intro s s' h
      by_cases hp : s.pending = []
      · rw [pollLoop_succ, if_pos hp] at h
        injection h with h2
        injection h2 with h3 h4
        cases h4
      · by_cases ht : 40 < s.clock ∧ 4 < s.counter
        · rw [pollLoop_succ, if_neg hp, if_pos ht] at h
          injection h with h2
          injection h2 with h3 h4
          rw [← h3]
          exact ht
        · rw [pollLoop_succ, if_neg hp, if_neg ht] at h
          exact ih _ _ h
  · intro query pending N hN hconf
    obtain ⟨s2, hs2, hs2p⟩ := pollLoop_budget_aux query N hN (N + 1)
      ⟨pending, 0, 1⟩ (by show (0 : Nat) = 3 * (1 - 1); omega)
      (by show (1 : Nat) ≤ 1; omega) (by show 1 + (N + 1) = N + 2; omega)
      (by show 1 ≤ N + 1; omega)
      (fun c hc => by
        obtain ⟨r, hr1, hr2, hr3⟩ := hconf c hc
        exact ⟨r, hr1, hr2, hr3⟩)
    rw [hs2]
    simp only [Option.map_some']
    rw [hs2p]
  · intro query extra pending
    exact pollLoop_total_aux query extra 14 ⟨pending, 0, 1⟩
      (by show 41 ≤ 0 + 3 * 14; omega) (by show 5 ≤ 1 + 14; omega)

/-- Witness for C5: part (1) at a single never-confirming challenge, part
(2) at the concrete break state it reaches (clock 42, counter 15), part (3)
at two challenges confirming on their second and third polling rounds
(within the budget but after round 1), part (4) at a never-confirming
challenge under nonzero extra per-round time. -/
theorem claimC5_witness :
    (pollLoop (fun _ _ => false) (fun _ => 0) 15 ⟨[100], 0, 1⟩).1.map Prod.snd
        = some true ∧
    (40 < (42 : Nat) ∧ 4 < (15 : Nat)) ∧
    (pollLoop (fun c r => decide (r = c)) (fun _ => 0) 4 ⟨[2, 3], 0, 1⟩).1.map
        (fun p => (p.1.pending, p.2)) = some ([], false) ∧
    ((pollLoop (fun _ _ => false) (fun _ => 7) 15 ⟨[9], 0, 1⟩).1).isSome
        = true :=
  ⟨claimC5.1 (fun _ _ => false) (fun _ => 0) [100] (fun _ _ => rfl) (by decide),
   claimC5.2.1 (fun _ _ => false) (fun _ => 0) 15 ⟨[100], 0, 1⟩ ⟨[100], 42, 15⟩
     (by decide),
   claimC5.2.2.1 (fun c r => decide (r = c)) [2, 3] 3 (by omega)
     (fun c hc => by
       rcases List.mem_cons.mp hc with h1 | h2
       · exact ⟨2, by omega, by omega, by rw [h1]; rfl⟩
       · rcases List.mem_singleton.mp h2 with h1
         exact ⟨3, by omega, by omega, by rw [h1]; rfl⟩),
   claimC5.2.2.2 (fun _ _ => false) (fun _ => 7) [9]⟩


/-! ## C9: transaction granularity of the relational backend -/

/-- A run containing no `commit` leaves the durable state untouched and
folds the statements into the volatile state. -/
theorem runJournal_nonCommits :
    ∀ (l : List SqlStmt) (v d : SqliteState), (∀ s ∈ l, s ≠ SqlStmt.commit) →
      runJournal v d l = (l.foldl applyStmt v, d) := by
  intro l
  induction l with
  | nil => intro v d h; rfl
  | cons x rest ih =>
    intro v d h
    cases x with
    | commit => exact absurd rfl (h .commit (List.mem_cons_self _ _))
    | insKey n b =>
      simp only [runJournal, List.foldl]
      exact ih _ d (fun s hs => h s (List.mem_cons_of_mem _ hs))
    | insCert n p b =>
      simp only [runJournal, List.foldl]
      exact ih _ d (fun s hs => h s (List.mem_cons_of_mem _ hs))
    | insDomain dm c =>
      simp only [runJournal, List.foldl]
      exact ih _ d (fun s hs => h s (List.mem_cons_of_mem _ hs))

/-- Journal runs decompose over list append. -/
theorem runJournal_append :
    ∀ (l1 l2 : List SqlStmt) (v d : SqliteState),
      runJournal v d (l1 ++ l2)
        = runJournal (runJournal v d l1).1 (runJournal v d l1).2 l2 := by
  intro l1
  induction l1 with
  | nil => intro l2 v d; rfl
  | cons x rest ih =>
    intro l2 v d
    cases x with
    | commit => simp only [List.cons_append, runJournal]; exact ih l2 v v
    | insKey n b => simp only [List.cons_append, runJournal]; exact ih l2 _ d
    | insCert n p b => simp only [List.cons_append, runJournal]; exact ih l2 _ d
    | insDomain dm c => simp only [List.cons_append, runJournal]; exact ih l2 _ d

/-- Folding the per-domain inserts appends exactly the per-domain rows. -/
theorem foldl_insDomains (cid : Nat) :
    ∀ (ds : List String) (vol : SqliteState),
      (ds.map (fun d => SqlStmt.insDomain d cid)).foldl applyStmt vol
        = { vol with ssl_domains := vol.ssl_domains ++ ds.map (fun d => (d, cid)) } := by
  intro ds
  induction ds with
  | nil => intro vol; simp
  | cons d rest ih =>
    intro vol
    simp only [List.map, List.foldl, applyStmt, ih, List.append_assoc,
      List.singleton_append]

/-- The statements of one `save_cert` call other than the final commit. -/
theorem saveCertScript_decomp (base : SqliteState) (pid cert : Nat)
    (ds : List String) (name : Option String) :
    saveCertScript base pid cert ds name
      = (SqlStmt.insCert name pid (cert_to_der cert)
          :: ds.map (fun d => SqlStmt.insDomain d (base.certificates.length + 1)))
        ++ [SqlStmt.commit] := by
  simp [saveCertScript]

/-- C9 (amended): each `save_key` and `save_cert` call is its own committed
transaction, but within one `save_cert` call the certificate row and the
per-domain index rows are written inside a single transaction committed once
at the end of the call — interrupting the call after any prefix of its
statements leaves either the original state or the complete result durably
visible, never a proper subset of the per-domain rows; running the full
script commits exactly the state produced by `save_cert` / `save_key`. -/
theorem claimC9 (base : SqliteState) (pid cert : Nat) (ds : List String)
    (name : Option String) (key : Nat) (kname : Option String) (k j : Nat)
    (hk : k ≤ (saveCertScript base pid cert ds name).length)
    (hj : j ≤ (saveKeyScript key kname).length) :
    (durableAfter base (saveCertScript base pid cert ds name) k = base ∨
     durableAfter base (saveCertScript base pid cert ds name) k
       = (SqliteKeyStore.save_cert base pid cert ds name).1) ∧
    (durableAfter base (saveKeyScript key kname) j = base ∨
     durableAfter base (saveKeyScript key kname) j
       = (SqliteKeyStore.save_key base key kname).1) ∧
    durableAfter base (saveCertScript base pid cert ds name)
        (saveCertScript base pid cert ds name).length
      = (SqliteKeyStore.save_cert base pid cert ds name).1 ∧
    durableAfter base (saveKeyScript key kname) (saveKeyScript key kname).length
      = (SqliteKeyStore.save_key base key kname).1 := by
  have hpre : ∀ s ∈ SqlStmt.insCert name pid (cert_to_der cert)
      :: ds.map (fun d => SqlStmt.insDomain d (base.certificates.length + 1)),
      s ≠ SqlStmt.commit := by
    intro s hs
    rcases List.mem_cons.mp hs with h1 | h2
    · rw [h1]; intro hh; cases hh
    · obtain ⟨d, _, hd⟩ := List.mem_map.mp h2
      rw [← hd]; intro hh; cases hh
  have hfull : durableAfter base (saveCertScript base pid cert ds name)
      (saveCertScript base pid cert ds name).length
      = (SqliteKeyStore.save_cert base pid cert ds name).1 := by
    unfold durableAfter
    rw [List.take_length, saveCertScript_decomp, runJournal_append,
      runJournal_nonCommits _ _ _ hpre]
    show (List.foldl applyStmt base _) = _
    simp only [List.foldl, applyStmt, foldl_insDomains]
    rfl
  have hkfull : durableAfter base (saveKeyScript key kname)
      (saveKeyScript key kname).length
      = (SqliteKeyStore.save_key base key kname).1 := by
    rfl
  refine ⟨?_, ?_, hfull, hkfull⟩
  · rcases Nat.lt_or_ge k (saveCertScript base pid cert ds name).length with hlt | hge
    · left
      unfold durableAfter
      have hklen : k ≤ (SqlStmt.insCert name pid (cert_to_der cert)
          :: ds.map (fun d => SqlStmt.insDomain d (base.certificates.length + 1))).length := by
        rw [saveCertScript_decomp] at hlt
        simp only [List.length_append, List.length_cons, List.length_nil] at hlt ⊢
        omega
      rw [saveCertScript_decomp, List.take_append_eq_append_take,
        Nat.sub_eq_zero_of_le hklen, List.take_zero, List.append_nil,
        runJournal_nonCommits]
      intro s hs
      exact hpre s (List.take_subset _ _ hs)
    · right
      have : k = (saveCertScript base pid cert ds name).length := le_antisymm hk hge
      rw [this]
      exact hfull
  · have hj2 : j ≤ 2 := by simpa [saveKeyScript] using hj
    interval_cases j
    · exact Or.inl rfl
    · exact Or.inl rfl
    · exact Or.inr rfl

/-- Witness for C9 at a concrete two-domain `save_cert` interrupted after
statement 2 (mid-loop) and a concrete `save_key` interrupted after its
insert. -/
theorem claimC9_witness :
    (durableAfter ⟨[(none, key_to_der 1)], [], []⟩
        (saveCertScript ⟨[(none, key_to_der 1)], [], []⟩ 1 10 ["a.com", "b.com"] none) 2
        = ⟨[(none, key_to_der 1)], [], []⟩ ∨
     durableAfter ⟨[(none, key_to_der 1)], [], []⟩
        (saveCertScript ⟨[(none, key_to_der 1)], [], []⟩ 1 10 ["a.com", "b.com"] none) 2
        = (SqliteKeyStore.save_cert ⟨[(none, key_to_der 1)], [], []⟩ 1 10
            ["a.com", "b.com"] none).1) ∧
    (durableAfter ⟨[(none, key_to_der 1)], [], []⟩ (saveKeyScript 7 (some "n")) 1
        = ⟨[(none, key_to_der 1)], [], []⟩ ∨
     durableAfter ⟨[(none, key_to_der 1)], [], []⟩ (saveKeyScript 7 (some "n")) 1
        = (SqliteKeyStore.save_key ⟨[(none, key_to_der 1)], [], []⟩ 7 (some "n")).1) :=
  ⟨(claimC9 ⟨[(none, key_to_der 1)], [], []⟩ 1 10 ["a.com", "b.com"] none 7 (some "n")
      2 1 (by decide) (by decide)).1,
   (claimC9 ⟨[(none, key_to_der 1)], [], []⟩ 1 10 ["a.com", "b.com"] none 7 (some "n")
      2 1 (by decide) (by decide)).2.1⟩

/-- C9 (counterexample to the claim as stated): for a concrete two-domain
`save_cert` call, no interruption point leaves a proper subset of the
per-domain rows durably visible — at every prefix length the durable state
is either the untouched base or the complete result, because the single
`conn.commit()` sits at the end of the call. -/
theorem claimC9_cex :
    ((List.range ((saveCertScript ⟨[(none, key_to_der 1)], [], []⟩ 1 10
          ["a.com", "b.com"] none).length + 1)).all fun k =>
      decide (durableAfter ⟨[(none, key_to_der 1)], [], []⟩
          (saveCertScript ⟨[(none, key_to_der 1)], [], []⟩ 1 10
            ["a.com", "b.com"] none) k
          = ⟨[(none, key_to_der 1)], [], []⟩ ∨
        durableAfter ⟨[(none, key_to_der 1)], [], []⟩
          (saveCertScript ⟨[(none, key_to_der 1)], [], []⟩ 1 10
            ["a.com", "b.com"] none) k
          = (SqliteKeyStore.save_cert ⟨[(none, key_to_der 1)], [], []⟩ 1 10
              ["a.com", "b.com"] none).1)) = true := by
  decide

/-! ## C7: save/get round trip -/

/-- After `save_cert`, the certs directory holds the new certificate PEM
under exactly the saved domains. -/
theorem saveCertLoop_certs (pid : Option String) (kc cb : Bytes) :
    ∀ (ds : List String) (st : FsState) (d : String),
      fsRead (FilesystemKeyStore.saveCertLoop pid kc cb ds st).certs d
        = if d ∈ ds then some cb else fsRead st.certs d := by
  intro ds
  induction ds with
  | nil => intro st d; simp [FilesystemKeyStore.saveCertLoop]
  | cons d0 rest ih =>
    intro st d
    simp only [FilesystemKeyStore.saveCertLoop, ih]
    by_cases hr : d ∈ rest
    · rw [if_pos hr, if_pos (List.mem_cons_of_mem _ hr)]
    · rw [if_neg hr]
      by_cases h0 : d = d0
      · subst h0
        rw [if_pos (List.mem_cons_self _ _)]
        exact fsRead_fsWrite_self _ _ _
      · rw [if_neg (by simp [List.mem_cons, h0, hr])]
        exact fsRead_fsWrite_other _ _ _ _ (fun hh => h0 hh.symm)

/-- After `save_cert`, the keys directory holds the copied key bytes under
every saved domain other than the key's own name, and is untouched
elsewhere. -/
theorem saveCertLoop_keys (pid : Option String) (kc cb : Bytes) :
    ∀ (ds : List String) (st : FsState) (d : String),
      fsRead (FilesystemKeyStore.saveCertLoop pid kc cb ds st).keys d
        = if d ∈ ds ∧ pid ≠ some d then some kc else fsRead st.keys d := by
  intro ds
  induction ds with
  | nil => intro st d; simp [FilesystemKeyStore.saveCertLoop]
  | cons d0 rest ih =>
    intro st d
    simp only [FilesystemKeyStore.saveCertLoop, ih]
    by_cases hr : d ∈ rest ∧ pid ≠ some d
    · rw [if_pos hr, if_pos ⟨List.mem_cons_of_mem _ hr.1, hr.2⟩]
    · rw [if_neg hr]
      by_cases hpid : pid = some d0
      · rw [if_pos hpid]
        by_cases h0 : d = d0
        · subst h0
          rw [if_neg (by rw [hpid]; simp)]
        · rw [if_neg (by
            intro hand
            rcases List.mem_cons.mp hand.1 with h1 | h2
            · exact h0 h1
            · exact hr ⟨h2, hand.2⟩)]
      · rw [if_neg hpid]
        by_cases h0 : d = d0
        · subst h0
          rw [if_pos ⟨List.mem_cons_self _ _, hpid⟩]
          exact fsRead_fsWrite_self _ _ _
        · rw [if_neg (by
            intro hand
            rcases List.mem_cons.mp hand.1 with h1 | h2
            · exact h0 h1
            · exact hr ⟨h2, hand.2⟩)]
          exact fsRead_fsWrite_other _ _ _ _ (fun hh => h0 hh.symm)

/-- A join candidate for a non-matching domain contributes nothing. -/
theorem joinOne_ne (st : SqliteState) (d : String) (r : String × Nat)
    (h : ¬r.1 = d) : SqliteKeyStore.joinOne st d r = none := by
  unfold SqliteKeyStore.joinOne
  rw [if_neg h]

/-- A matching domain row whose certificate and key rows exist produces the
joined triple. -/
theorem joinOne_hit (st : SqliteState) (d : String) (cid : Nat)
    (c : Option String × Nat × Bytes) (p : Option String × Bytes)
    (hcr : rowGet st.certificates cid = some c)
    (hpr : rowGet st.private_keys c.2.1 = some p) :
    SqliteKeyStore.joinOne st d (d, cid) = some (cid, p.2, c.2.2) := by
  show (if d = d then
      match rowGet st.certificates cid with
      | none => none
      | some c =>
        match rowGet st.private_keys c.2.1 with
        | none => none
        | some p => some (cid, p.2, c.2.2)
    else none) = some (cid, p.2, c.2.2)
  rw [if_pos rfl, hcr]
  show (match rowGet st.private_keys c.2.1 with
    | none => none
    | some p => some (cid, p.2, c.2.2)) = some (cid, p.2, c.2.2)
  rw [hpr]

/-- Inversion: a successful join candidate comes from a matching domain row
with existing certificate and key rows. -/
theorem joinOne_inv (st : SqliteState) (d : String) (r : String × Nat)
    (v : Nat × Bytes × Bytes) (h : SqliteKeyStore.joinOne st d r = some v) :
    r.1 = d ∧ ∃ c, rowGet st.certificates r.2 = some c ∧
      ∃ p, rowGet st.private_keys c.2.1 = some p ∧ v = (r.2, p.2, c.2.2) := by
  unfold SqliteKeyStore.joinOne at h
  by_cases hr1 : r.1 = d
  · rw [if_pos hr1] at h
    cases hcr : rowGet st.certificates r.2 with
    | none =>
      rw [hcr] at h
      exact Option.noConfusion h
    | some c =>
      rw [hcr] at h
      change (match rowGet st.private_keys c.2.1 with
        | none => none
        | some p => some (r.2, p.2, c.2.2)) = some v at h
      cases hpr : rowGet st.private_keys c.2.1 with
      | none =>
        rw [hpr] at h
        exact Option.noConfusion h
      | some p =>
        rw [hpr] at h
        change some (r.2, p.2, c.2.2) = some v at h
        exact ⟨hr1, c, rfl, p, hpr, (Option.some.inj h).symm⟩
  · rw [if_neg hr1] at h
    exact Option.noConfusion h

/-- When a per-domain row for `d` is present at certificate id `cid`, whose
cert row and key row both exist, the lookup join finds the first such row. -/
theorem findSome_domains (f : String × Nat → Option (Nat × Bytes × Bytes))
    (cid : Nat) (v : Nat × Bytes × Bytes) :
    ∀ (ds : List String) (d : String), d ∈ ds →
      f (d, cid) = some v → (∀ x, x ≠ d → f (x, cid) = none) →
      (ds.map (fun x => (x, cid))).findSome? f = some v := by
  intro ds
  induction ds with
  | nil => intro d hd; cases hd
  | cons x rest ih =>
    intro d hd hhit hmiss
    by_cases hx : x = d
    · subst hx
      simp only [List.map, List.findSome?_cons, hhit]
    · simp only [List.map, List.findSome?_cons, hmiss x hx]
      have hdr : d ∈ rest := by
        rcases List.mem_cons.mp hd with h1 | h2
        · exact absurd h1.symm hx
        · exact h2
      exact ih d hdr hhit hmiss

/-- Round trip on the relational backend for a domain with no pre-existing
index row: `get_cert` after `save_cert` returns the new certificate id and
the decoded saved key and certificate. -/
theorem sqlite_roundtrip (st : SqliteState) (kid key cert : Nat)
    (ds : List String) (name nm : Option String) (d : String)
    (hkey : rowGet st.private_keys kid = some (nm, key_to_der key))
    (hd : d ∈ ds) (hfresh : ∀ cid, (d, cid) ∉ st.ssl_domains) :
    SqliteKeyStore.get_cert (SqliteKeyStore.save_cert st kid cert ds name).1 d
      = .ok (some (st.certificates.length + 1, key, cert)) := by
  have hone : SqliteKeyStore.joinOne
        (SqliteKeyStore.save_cert st kid cert ds name).1 d
        (d, st.certificates.length + 1)
        = some (st.certificates.length + 1, key_to_der key, cert_to_der cert) := by
      have hcr : rowGet (SqliteKeyStore.save_cert st kid cert ds name).1.certificates
          (st.certificates.length + 1) = some (name, kid, cert_to_der cert) :=
        rowGet_append_last st.certificates (name, kid, cert_to_der cert)
      exact joinOne_hit _ d _ _ (nm, key_to_der key) hcr hkey
  have hjoin : SqliteKeyStore.joinRow
      (SqliteKeyStore.save_cert st kid cert ds name).1 d
      = some (st.certificates.length + 1, key_to_der key, cert_to_der cert) := by
    show (st.ssl_domains
        ++ ds.map (fun d2 => (d2, st.certificates.length + 1))).findSome?
        (SqliteKeyStore.joinOne (SqliteKeyStore.save_cert st kid cert ds name).1 d)
      = _
    rw [List.findSome?_append]
    have hold : st.ssl_domains.findSome?
        (SqliteKeyStore.joinOne
          (SqliteKeyStore.save_cert st kid cert ds name).1 d) = none := by
      rw [List.findSome?_eq_none_iff]
      intro r hr
      by_cases hr1 : r.1 = d
      · exact absurd (show (d, r.2) ∈ st.ssl_domains by rw [← hr1]; exact hr)
          (hfresh r.2)
      · exact joinOne_ne _ _ _ hr1
    rw [hold, Option.none_or]
    exact findSome_domains _ (st.certificates.length + 1) _ ds d hd hone
      (fun x hx => joinOne_ne _ _ _ hx)
  show (match SqliteKeyStore.joinRow
      (SqliteKeyStore.save_cert st kid cert ds name).1 d with
    | none => Except.ok none
    | some (cid, keyBytes, certBytes) =>
      match keyFromDer keyBytes, certFromDer certBytes with
      | some k, some c => Except.ok (some (cid, k, c))
      | _, _ => Except.error ()) = _
  rw [hjoin]
  rfl

/-- C7 (amended): the round-trip law holds on the relational backend for
every domain of the `save_cert` call that had no pre-existing index row
(the saved key and certificate bytes come back decoded, under the new
certificate's identifier), and on the filesystem backend for every domain
of the call whenever the referenced key file was previously saved — in
particular the key returned for a non-primary domain is the one stored for
`key_id`.  (Without the freshness condition the relational lookup can
return an older record, see the counterexample.) -/
theorem claimC7 :
    (∀ (st : SqliteState) (kid key cert : Nat) (ds : List String)
        (name nm : Option String) (d : String),
        rowGet st.private_keys kid = some (nm, key_to_der key) →
        d ∈ ds → (∀ cid, (d, cid) ∉ st.ssl_domains) →
        SqliteKeyStore.get_cert (SqliteKeyStore.save_cert st kid cert ds name).1 d
          = .ok (some (st.certificates.length + 1, key, cert))) ∧
    (∀ (st : FsState) (kid : Option String) (key cert : Nat) (ds : List String)
        (st2 : FsState) (rid : Option String) (d : String),
        fsRead st.keys (pyStr kid) = some (key_to_pem key) →
        FilesystemKeyStore.save_cert st kid cert ds none = some (st2, rid) →
        d ∈ ds →
        FilesystemKeyStore.get_cert st2 d = some (d, key, cert)) := by
  constructor
  · intro st kid key cert ds name nm d hkey hd hfresh
    exact sqlite_roundtrip st kid key cert ds name nm d hkey hd hfresh
  · intro st kid key cert ds st2 rid d hkey hsave hd
    have hds : ds ≠ [] := by intro hh; rw [hh] at hd; cases hd
    cases ds with
    | nil => exact absurd rfl hds
    | cons d0 rest =>
      have hst2 : st2 = FilesystemKeyStore.saveCertLoop kid (key_to_pem key)
          (cert_to_pem cert) (d0 :: rest) st := by
        unfold FilesystemKeyStore.save_cert at hsave
        rw [hkey] at hsave
        injection hsave with hsave2
        have := congrArg Prod.fst hsave2
        exact this.symm
      subst hst2
      have hkeyread : fsRead (FilesystemKeyStore.saveCertLoop kid (key_to_pem key)
          (cert_to_pem cert) (d0 :: rest) st).keys d = some (key_to_pem key) := by
        rw [saveCertLoop_keys]
        by_cases hpid : kid = some d
        · rw [if_neg (by intro hand; exact hand.2 hpid)]
          rw [← hkey, hpid]
          rfl
        · rw [if_pos ⟨hd, hpid⟩]
      have hcertread : fsRead (FilesystemKeyStore.saveCertLoop kid (key_to_pem key)
          (cert_to_pem cert) (d0 :: rest) st).certs d = some (cert_to_pem cert) := by
        rw [saveCertLoop_certs, if_pos hd]
      show (match (match fsRead (FilesystemKeyStore.saveCertLoop kid (key_to_pem key)
              (cert_to_pem cert) (d0 :: rest) st).keys d with
            | some b => keyFromPem b
            | none => none),
          (match fsRead (FilesystemKeyStore.saveCertLoop kid (key_to_pem key)
              (cert_to_pem cert) (d0 :: rest) st).certs d with
            | some b => certFromPem b
            | none => none) with
        | some k, some c => some (d, k, c)
        | _, _ => none) = some (d, key, cert)
      rw [hkeyread, hcertread]
      rfl

/-- C7 (counterexample): on the relational backend, with key 2 previously
saved and an old index row for `"a.com"` pointing at certificate 1,
`save_cert(2, cert 20, ["a.com"])` succeeds but `get_cert "a.com"` still
returns the OLD record `(1, key 1, cert 10)` rather than the bytes just
saved: the round-trip law as stated fails. -/
theorem claimC7_cex :
    SqliteKeyStore.get_cert
        ((SqliteKeyStore.save_cert
            ⟨[(none, key_to_der 1), (none, key_to_der 2)],
             [(none, 1, cert_to_der 10)], [("a.com", 1)]⟩
            2 20 ["a.com"] none).1) "a.com"
      = .ok (some (1, 1, 10)) ∧
    SqliteKeyStore.get_cert
        ((SqliteKeyStore.save_cert
            ⟨[(none, key_to_der 1), (none, key_to_der 2)],
             [(none, 1, cert_to_der 10)], [("a.com", 1)]⟩
            2 20 ["a.com"] none).1) "a.com"
      ≠ .ok (some (2, 2, 20)) := by
  exact ⟨by decide, by decide⟩

/-- Witness for C7: the relational part on a fresh two-domain save, the
filesystem part on the non-primary domain `"b.com"`. -/
theorem claimC7_witness :
    SqliteKeyStore.get_cert
        ((SqliteKeyStore.save_cert ⟨[(none, key_to_der 1)], [], []⟩
            1 5 ["a.com", "b.com"] none).1) "b.com"
      = .ok (some (1, 1, 5)) ∧
    FilesystemKeyStore.get_cert
        ⟨[("k", key_to_pem 1), ("a.com", key_to_pem 1), ("b.com", key_to_pem 1)],
         [("a.com", cert_to_pem 5), ("b.com", cert_to_pem 5)]⟩ "b.com"
      = some ("b.com", 1, 5) :=
  ⟨claimC7.1 ⟨[(none, key_to_der 1)], [], []⟩ 1 1 5 ["a.com", "b.com"] none none
      "b.com" rfl (by simp) (by simp),
   claimC7.2 ⟨[("k", key_to_pem 1)], []⟩ (some "k") 1 5 ["a.com", "b.com"]
      ⟨[("k", key_to_pem 1), ("a.com", key_to_pem 1), ("b.com", key_to_pem 1)],
       [("a.com", cert_to_pem 5), ("b.com", cert_to_pem 5)]⟩ (some "a.com")
      "b.com" rfl rfl (by simp)⟩

/-! ## C6: the all-existing short-circuit -/

/-- Elements of the deduplicated list come from the original list. -/
theorem pyDedup_subset (l : List String) (a : String) (ha : a ∈ pyDedup l) :
    a ∈ l := by
  match l with
  | [] => rw [pyDedup] at ha; cases ha
  | h :: rest =>
    rw [pyDedup] at ha
    rcases List.mem_cons.mp ha with h1 | h2
    · rw [h1]; exact List.mem_cons_self _ _
    · have hrec := pyDedup_subset (rest.filter (fun x => x ≠ h)) a h2
      exact List.mem_cons_of_mem _ (List.mem_of_mem_filter hrec)
termination_by l.length
decreasing_by
  simp only [List.length_cons]
  exact Nat.lt_succ_of_le (List.length_filter_le _ _)

/-- When every element resolves, the keys of the existing map are exactly
the (deduplicated) hosts. -/
theorem existingMap_keys {ι : Type} (get : String → Option (ι × Nat × Nat)) :
    ∀ (l : List String), (∀ h ∈ l, (get h).isSome = true) →
      (l.filterMap (fun h => (get h).map (fun v => (h, v)))).map Prod.fst = l := by
  intro l
  induction l with
  | nil => intro h; rfl
  | cons h rest ih =>
    intro hall
    obtain ⟨v, hv⟩ := Option.isSome_iff_exists.mp (hall h (List.mem_cons_self _ _))
    simp only [List.filterMap_cons, hv, Option.map_some']
    simp only [List.map_cons]
    rw [ih (fun x hx => hall x (List.mem_cons_of_mem _ hx))]

/-- Membership in the existing map determines the lookup result. -/
theorem existingMap_mem {ι : Type} {get : String → Option (ι × Nat × Nat)}
    {hosts : List String} {e : String × ι × Nat × Nat}
    (he : e ∈ existingMap get hosts) : get e.1 = some e.2 := by
  obtain ⟨a, _, ha⟩ := List.mem_filterMap.mp he
  rcases hga : get a with _ | v
  · rw [hga] at ha; cases ha
  · rw [hga] at ha
    simp only [Option.map_some'] at ha
    cases ha
    exact hga

/-- The flattened host lists of the grouped map. -/
def groupsFlat {ι : Type} (m : List (ι × List String × Bytes × Bytes)) : List String :=
  m.foldr (fun g acc => g.2.1 ++ acc) []

theorem groupsFlat_map {ι : Type} (m : List (ι × List String × Bytes × Bytes)) :
    flatDomains (m.map (fun g => ⟨g.2.2.1, g.2.2.2, g.2.1⟩)) = groupsFlat m := by
  induction m with
  | nil => rfl
  | cons g rest ih =>
    simp only [List.map_cons, flatDomains, groupsFlat, List.foldr] at ih ⊢
    rw [ih]

theorem groupsFlat_upsert {ι : Type} [DecidableEq ι]
    (m : List (ι × List String × Bytes × Bytes)) (id : ι) (h : String)
    (key cert : Bytes) :
    (groupsFlat (upsertGroup m id h key cert)).Perm (h :: groupsFlat m) := by
  induction m with
  | nil => simp [upsertGroup, groupsFlat]
  | cons g rest ih =>
    obtain ⟨i, hs, k, c⟩ := g
    by_cases hi : i = id
    · simp only [upsertGroup, if_pos hi, groupsFlat, List.foldr]
      rw [List.append_assoc, List.singleton_append]
      exact List.perm_middle
    · simp only [upsertGroup, if_neg hi, groupsFlat, List.foldr]
      exact List.Perm.trans (List.Perm.append_left hs ih) List.perm_middle

theorem groupsFlat_buildCertMap {ι : Type} [DecidableEq ι] :
    ∀ (entries : List (String × ι × Nat × Nat))
      (acc : List (ι × List String × Bytes × Bytes)),
      (groupsFlat (buildCertMap acc entries)).Perm
        (groupsFlat acc ++ entries.map Prod.fst) := by
  intro entries
  induction entries with
  | nil => intro acc; simp [buildCertMap]
  | cons e rest ih =>
    intro acc
    obtain ⟨h, i, k, c⟩ := e
    simp only [buildCertMap, List.map_cons]
    refine List.Perm.trans (ih _) ?_
    refine List.Perm.trans
      (List.Perm.append_right _ (groupsFlat_upsert acc i h (key_to_pem k) (cert_to_pem c))) ?_
    exact List.perm_middle.symm

/-- Invariant carried by each group of `certMap`: its stored PEM pair
decodes the key/certificate shared by all its hosts, each of which resolves
to the group's identifier. -/
def GoodGroup {ι : Type} (get : String → Option (ι × Nat × Nat))
    (g : ι × List String × Bytes × Bytes) : Prop :=
  ∃ k c, g.2.2.1 = key_to_pem k ∧ g.2.2.2 = cert_to_pem c ∧
    (∀ d ∈ g.2.1, get d = some (g.1, k, c)) ∧ g.2.1 ≠ []

theorem upsertGroup_good {ι : Type} [DecidableEq ι]
    (get : String → Option (ι × Nat × Nat))
    (hfun : ∀ h h' i k c k' c', get h = some (i, k, c) → get h' = some (i, k', c') →
        k = k' ∧ c = c') :
    ∀ (m : List (ι × List String × Bytes × Bytes)) (id : ι) (h : String)
      (k c : Nat), (∀ g ∈ m, GoodGroup get g) → get h = some (id, k, c) →
      ∀ g ∈ upsertGroup m id h (key_to_pem k) (cert_to_pem c), GoodGroup get g := by
  intro m
  induction m with
  | nil =>
    intro id h k c _ hget g hg
    simp only [upsertGroup, List.mem_singleton] at hg
    subst hg
    exact ⟨k, c, rfl, rfl, fun d hd => by
      rcases List.mem_singleton.mp hd with h1
      rw [h1]; exact hget, by simp⟩
  | cons g0 rest ih =>
    intro id h k c hall hget g hg
    obtain ⟨i, hs, kk, cc⟩ := g0
    by_cases hi : i = id
    · subst hi
      simp only [upsertGroup, if_pos rfl] at hg
      rcases List.mem_cons.mp hg with h1 | h2
      · subst h1
        obtain ⟨k0, c0, hk0, hc0, hmem0, hne0⟩ :=
          hall (i, hs, kk, cc) (List.mem_cons_self _ _)
        cases hs with
        | nil => exact absurd rfl hne0
        | cons d0 hs2 =>
          have hd0 : get d0 = some (i, k0, c0) := hmem0 d0 (List.mem_cons_self _ _)
          obtain ⟨hk, hc⟩ := hfun h d0 i k c k0 c0 hget hd0
          refine ⟨k0, c0, hk0, hc0, ?_, by simp⟩
          intro d hd
          rcases List.mem_append.mp hd with hL | hR
          · exact hmem0 d hL
          · rcases List.mem_singleton.mp hR with h1
            rw [h1, hget, hk, hc]
      · exact hall g (List.mem_cons_of_mem _ h2)
    · simp only [upsertGroup, if_neg hi] at hg
      rcases List.mem_cons.mp hg with h1 | h2
      · subst h1
        exact hall _ (List.mem_cons_self _ _)
      · exact ih id h k c (fun g2 hg2 => hall g2 (List.mem_cons_of_mem _ hg2)) hget g h2

theorem buildCertMap_good {ι : Type} [DecidableEq ι]
    (get : String → Option (ι × Nat × Nat))
    (hfun : ∀ h h' i k c k' c', get h = some (i, k, c) → get h' = some (i, k', c') →
        k = k' ∧ c = c') :
    ∀ (entries : List (String × ι × Nat × Nat))
      (acc : List (ι × List String × Bytes × Bytes)),
      (∀ g ∈ acc, GoodGroup get g) →
      (∀ e ∈ entries, get e.1 = some e.2) →
      ∀ g ∈ buildCertMap acc entries, GoodGroup get g := by
  intro entries
  induction entries with
  | nil => intro acc hacc _ g hg; exact hacc g hg
  | cons e rest ih =>
    intro acc hacc hent g hg
    obtain ⟨h, i, k, c⟩ := e
    simp only [buildCertMap] at hg
    exact ih _ (upsertGroup_good get hfun acc i h k c hacc
        (hent (h, i, k, c) (List.mem_cons_self _ _))) (fun e2 he2 =>
        hent e2 (List.mem_cons_of_mem _ he2)) g hg

/-- The keys of the existing map are the deduplicated resolving hosts. -/
theorem existingMap_fst {ι : Type} (get : String → Option (ι × Nat × Nat))
    (hosts : List String) (hall : ∀ h ∈ hosts, (get h).isSome = true) :
    (existingMap get hosts).map Prod.fst = pyDedup hosts := by
  show ((pyDedup hosts).filterMap
      (fun h => (get h).map (fun v => (h, v)))).map Prod.fst = pyDedup hosts
  exact existingMap_keys get (pyDedup hosts)
    (fun h hh => hall h (pyDedup_subset hosts h hh))

/-- When no domain is missing, `obtainCert` takes the short-circuit branch:
the result is built purely from the existing map and the trace holds only
the key-store lookups. -/
theorem obtainCert_shortcircuit {ι : Type} [DecidableEq ι] (w : AcmeWorld)
    (get : String → Option (ι × Nat × Nat)) (hosts : List String) (fuel : Nat)
    (hmiss : hosts.filter (fun h => (get h).isNone) = []) :
    obtainCert w get (Sum.inr hosts) fuel
      = (.res (createExistingResponse (existingMap get hosts) []),
         hosts.map Ev.getCertStore) := by
  simp only [obtainCert, hostList, hmiss, List.isEmpty_nil, if_true]

/-- C6: when every requested domain already resolves through the key store,
`obtainCert` performs no protocol-client interaction (its whole event trace
is non-protocol lookups), returns a response whose issued list is empty,
and whose existing list covers exactly the (deduplicated) requested domains
with the stored key/certificate bytes of each. -/
theorem claimC6 {ι : Type} [DecidableEq ι] (w : AcmeWorld)
    (get : String → Option (ι × Nat × Nat)) (hosts : List String) (fuel : Nat)
    (hall : ∀ h ∈ hosts, (get h).isSome = true)
    (hfun : ∀ h h' i k c k' c', get h = some (i, k, c) →
        get h' = some (i, k', c') → k = k' ∧ c = c') :
    (obtainCert w get (Sum.inr hosts) fuel).2.all (fun e => !e.isProtocol) = true ∧
    ((obtainCert w get (Sum.inr hosts) fuel).1.getRes.map
        CertificateResponse.issued) = some [] ∧
    (∀ resp, (obtainCert w get (Sum.inr hosts) fuel).1.getRes = some resp →
      (flatDomains resp.existing).Perm (pyDedup hosts) ∧
      ∀ e ∈ resp.existing, ∀ d ∈ e.domains, ∃ i k c,
        get d = some (i, k, c) ∧ e.privateKey = key_to_pem k ∧
        e.certificate = cert_to_pem c) := by
  have hmiss : hosts.filter (fun h => (get h).isNone) = [] := by
    rw [List.filter_eq_nil]
    intro h hh hcontra
    have hs := hall h hh
    cases hg : get h with
    | none => rw [hg] at hs; cases hs
    | some v => rw [hg] at hcontra; cases hcontra
  rw [obtainCert_shortcircuit w get hosts fuel hmiss]
  refine ⟨?_, rfl, ?_⟩
  · rw [List.all_eq_true]
    intro e he
    obtain ⟨h, _, hh⟩ := List.mem_map.mp he
    rw [← hh]
    rfl
  · intro resp hresp
    injection hresp with hresp2
    subst hresp2
    constructor
    · show (flatDomains ((buildCertMap [] (existingMap get hosts)).map
          (fun g => ⟨g.2.2.1, g.2.2.2, g.2.1⟩))).Perm (pyDedup hosts)
      rw [groupsFlat_map]
      have hperm := groupsFlat_buildCertMap (existingMap get hosts)
        ([] : List (ι × List String × Bytes × Bytes))
      rw [existingMap_fst get hosts hall] at hperm
      rw [show groupsFlat ([] : List (ι × List String × Bytes × Bytes)) = []
        from rfl, List.nil_append] at hperm
      exact hperm
    · intro e he d hd
      obtain ⟨g, hg, hge⟩ := List.mem_map.mp he
      have hgood := buildCertMap_good get hfun (existingMap get hosts) []
        (by intro g2 hg2; cases hg2) (fun e2 he2 => existingMap_mem he2) g hg
      obtain ⟨k, c, hk, hc, hmem, _⟩ := hgood
      refine ⟨g.1, k, c, ?_, ?_, ?_⟩
      · apply hmem
        rw [← hge] at hd
        exact hd
      · rw [← hge]
        exact hk
      · rw [← hge]
        exact hc

/-- Witness for C6 at a two-domain request fully satisfied by a store in
which both domains share certificate identifier 1. -/
theorem claimC6_witness :
    ((obtainCert (ι := Nat)
        ⟨9, some [100], fun _ _ => false, fun _ => 0, fun _ => .processing, 77⟩
        (fun _ => some (1, 2, 3)) (Sum.inr ["a.com", "b.com"]) 0).2.all
        (fun e => !e.isProtocol) = true) ∧
    ((obtainCert (ι := Nat)
        ⟨9, some [100], fun _ _ => false, fun _ => 0, fun _ => .processing, 77⟩
        (fun _ => some (1, 2, 3)) (Sum.inr ["a.com", "b.com"]) 0).1.getRes.map
        CertificateResponse.issued = some []) ∧
    (flatDomains (createExistingResponse
        (existingMap (fun _ => some ((1 : Nat), 2, 3)) ["a.com", "b.com"])
        []).existing).Perm (pyDedup ["a.com", "b.com"]) := by
  have hfun : ∀ (h h' : String) (i k c k' c' : Nat),
      (fun _ => some ((1 : Nat), 2, 3)) h = some (i, k, c) →
      (fun _ => some ((1 : Nat), 2, 3)) h' = some (i, k', c') →
      k = k' ∧ c = c' := by
    intro h h' i k c k' c' h1 h2
    simp only [Option.some.injEq, Prod.mk.injEq] at h1 h2
    rw [← h1.2.1, ← h1.2.2, ← h2.2.1, ← h2.2.2]
    exact ⟨rfl, rfl⟩
  have C := claimC6 (ι := Nat)
    ⟨9, some [100], fun _ _ => false, fun _ => 0, fun _ => .processing, 77⟩
    (fun _ => some (1, 2, 3)) ["a.com", "b.com"] 0 (fun _ _ => rfl) hfun
  exact ⟨C.1, C.2.1, (C.2.2 _ rfl).1⟩

/-! ## C8: publication before polling, polling before finalization -/

/-- A query event is neither a publication nor a finalization. -/
theorem query_shape (e : Ev) (h : e.isQuery = true) :
    e.isPublish = false ∧ e.isFinalize = false := by
  cases e <;> simp_all [Ev.isQuery, Ev.isPublish, Ev.isFinalize]

/-- Every event emitted by the poll loop is a challenge progress query. -/
theorem pollLoop_trace_query (q : Nat → Nat → Bool) (x : Nat → Nat) :
    ∀ fuel (s : PollState) (e : Ev), e ∈ (pollLoop q x fuel s).2 →
      e.isQuery = true := by
  intro fuel
  induction fuel with
  | zero => intro s e he; cases he
  | succ n ih =>
    intro s e he
    rw [pollLoop_succ] at he
    by_cases hp : s.pending = []
    · rw [if_pos hp] at he; cases he
    · rw [if_neg hp] at he
      by_cases ht : 40 < s.clock ∧ 4 < s.counter
      · rw [if_pos ht] at he; cases he
      · rw [if_neg ht] at he
        rcases List.mem_append.mp he with hL | hR
        · obtain ⟨c2, _, hc⟩ := List.mem_map.mp hL
          rw [← hc]
          rfl
        · exact ih _ e hR

/-- Every event emitted by the validity-poll recursion is a refresh,
download or store write: no publication, no query, no finalization. -/
theorem obtainCertRec_trace {ι : Type} [DecidableEq ι] (w : AcmeWorld)
    (ex : List (String × ι × Nat × Nat)) (ms : List String) :
    ∀ fuel a c (e : Ev), e ∈ (obtainCertRec w ex ms fuel a c).2 →
      e.isPublish = false ∧ e.isQuery = false ∧ e.isFinalize = false := by
  intro fuel
  induction fuel with
  | zero => intro a c e he; cases he
  | succ n ih =>
    intro a c e he
    simp only [obtainCertRec] at he
    cases hst : w.orderStatus a with
    | valid =>
      rw [hst] at he
      rcases List.mem_cons.mp he with h1 | he2
      · rw [h1]; exact ⟨rfl, rfl, rfl⟩
      rcases List.mem_cons.mp he2 with h1 | he3
      · rw [h1]; exact ⟨rfl, rfl, rfl⟩
      rcases List.mem_cons.mp he3 with h1 | he4
      · rw [h1]; exact ⟨rfl, rfl, rfl⟩
      rcases List.mem_cons.mp he4 with h1 | he5
      · rw [h1]; exact ⟨rfl, rfl, rfl⟩
      · cases he5
    | processing =>
      rw [hst] at he
      by_cases hc : c = 0
      · rw [if_pos hc] at he
        rcases List.mem_cons.mp he with h1 | he2
        · rw [h1]; exact ⟨rfl, rfl, rfl⟩
        · cases he2
      · rw [if_neg hc] at he
        rcases List.mem_cons.mp he with h1 | he2
        · rw [h1]; exact ⟨rfl, rfl, rfl⟩
        · exact ih (a + 1) 5 e he2
    | pending =>
      rw [hst] at he
      rcases List.mem_cons.mp he with h1 | he2
      · rw [h1]; exact ⟨rfl, rfl, rfl⟩
      · cases he2
    | ready =>
      rw [hst] at he
      rcases List.mem_cons.mp he with h1 | he2
      · rw [h1]; exact ⟨rfl, rfl, rfl⟩
      · cases he2
    | invalid =>
      rw [hst] at he
      rcases List.mem_cons.mp he with h1 | he2
      · rw [h1]; exact ⟨rfl, rfl, rfl⟩
      · cases he2

/-- An index holding an event that cannot occur in the right part of an
append lies in the left part. -/
theorem pos_bound (l1 l2 : List Ev) (P : Ev → Bool)
    (hnot : ∀ e ∈ l2, P e = false) :
    ∀ i (hi : i < (l1 ++ l2).length), P ((l1 ++ l2)[i]) = true → i < l1.length := by
  intro i hi hPi
  by_contra hge
  push_neg at hge
  have hlen : i - l1.length < l2.length := by
    rw [List.length_append] at hi
    omega
  have heq : (l1 ++ l2)[i] = l2[i - l1.length] := List.getElem_append_right hge
  rw [heq] at hPi
  rw [hnot _ (List.getElem_mem _)] at hPi
  cases hPi

/-- An index holding an event that cannot occur in the left part of an
append lies in the right part. -/
theorem pos_bound_ge (l1 l2 : List Ev) (Q : Ev → Bool)
    (hnot : ∀ e ∈ l1, Q e = false) :
    ∀ j (hj : j < (l1 ++ l2).length), Q ((l1 ++ l2)[j]) = true →
      l1.length ≤ j := by
  intro j hj hQj
  by_contra hlt
  push_neg at hlt
  have heq : (l1 ++ l2)[j] = l1[j] := List.getElem_append_left hlt
  rw [heq] at hQj
  rw [hnot _ (List.getElem_mem _)] at hQj
  cases hQj

/-- Positional ordering over a three-segment trace: publications live
before the query segment, queries before the finalize segment. -/
theorem before_parts (A L R : List Ev)
    (qA : ∀ e ∈ A, e.isQuery = false) (fA : ∀ e ∈ A, e.isFinalize = false)
    (hL : ∀ e ∈ L, e.isQuery = true)
    (pR : ∀ e ∈ R, e.isPublish = false) (qR : ∀ e ∈ R, e.isQuery = false) :
    (∀ i j (hi : i < (A ++ L ++ R).length) (hj : j < (A ++ L ++ R).length),
        ((A ++ L ++ R)[i]).isPublish = true →
        ((A ++ L ++ R)[j]).isQuery = true → i < j) ∧
    (∀ i j (hi : i < (A ++ L ++ R).length) (hj : j < (A ++ L ++ R).length),
        ((A ++ L ++ R)[i]).isQuery = true →
        ((A ++ L ++ R)[j]).isFinalize = true → i < j) := by
  constructor
  · intro i j hi hj hP hQ
    have hi2 : i < (A ++ L).length := pos_bound (A ++ L) R _ pR i hi hP
    have heqi : ((A ++ L) ++ R)[i] = (A ++ L)[i] := List.getElem_append_left hi2
    have hiA : i < A.length := by
      refine pos_bound A L _ (fun e he => (query_shape e (hL e he)).1) i hi2 ?_
      rw [← heqi]
      exact hP
    by_cases hj2 : j < (A ++ L).length
    · have heqj : ((A ++ L) ++ R)[j] = (A ++ L)[j] := List.getElem_append_left hj2
      have hja : A.length ≤ j := by
        refine pos_bound_ge A L _ qA j hj2 ?_
        rw [← heqj]
        exact hQ
      omega
    · push_neg at hj2
      rw [List.length_append] at hj2
      omega
  · intro i j hi hj hP hQ
    have hi2 : i < (A ++ L).length := pos_bound (A ++ L) R _ qR i hi hP
    have hjAL : (A ++ L).length ≤ j := by
      refine pos_bound_ge (A ++ L) R _ ?_ j hj hQ
      intro e he
      rcases List.mem_append.mp he with hmA | hmL
      · exact fA _ hmA
      · exact (query_shape _ (hL _ hmL)).2
    omega

/-- Structure of every `obtainCert` trace: a prefix without queries or
finalizations (lookups, order creation, challenge publication), then the
poll-loop queries, then a suffix (finalization and validity polling)
without publications or queries. -/
theorem obtainCert_trace_shape {ι : Type} [DecidableEq ι] (w : AcmeWorld)
    (get : String → Option (ι × Nat × Nat)) (hostIn : Sum String (List String))
    (fuel : Nat) :
    ∃ A L R, (obtainCert w get hostIn fuel).2 = A ++ L ++ R ∧
      (∀ e ∈ A, e.isQuery = false) ∧ (∀ e ∈ A, e.isFinalize = false) ∧
      (∀ e ∈ L, e.isQuery = true) ∧
      (∀ e ∈ R, e.isPublish = false) ∧ (∀ e ∈ R, e.isQuery = false) := by
  have hlook : ∀ (hosts : List String) e, e ∈ hosts.map Ev.getCertStore →
      e.isQuery = false ∧ e.isFinalize = false := by
    intro hosts e he
    obtain ⟨h, _, hh⟩ := List.mem_map.mp he
    rw [← hh]
    exact ⟨rfl, rfl⟩
  have hpub : ∀ (chals : List Nat) e,
      e ∈ chals.flatMap (fun c => [Ev.publish c, Ev.verify c]) →
      e.isQuery = false ∧ e.isFinalize = false := by
    intro chals e he
    obtain ⟨c, _, hc⟩ := List.mem_flatMap.mp he
    rcases List.mem_cons.mp hc with h1 | h2
    · rw [h1]; exact ⟨rfl, rfl⟩
    rcases List.mem_cons.mp h2 with h1 | h3
    · rw [h1]; exact ⟨rfl, rfl⟩
    · cases h3
  simp only [obtainCert]
  split
  · refine ⟨(hostList hostIn).map Ev.getCertStore, [], [], by simp, ?_, ?_,
      ?_, ?_, ?_⟩
    · intro e he; exact (hlook _ e he).1
    · intro e he; exact (hlook _ e he).2
    · intro e he; cases he
    · intro e he; cases he
    · intro e he; cases he
  · split
    · refine ⟨(hostList hostIn).map Ev.getCertStore
        ++ [Ev.createOrder ((hostList hostIn).filter (fun h => (get h).isNone))],
        [], [], by simp, ?_, ?_, ?_, ?_, ?_⟩
      · intro e he
        rcases List.mem_append.mp he with h1 | h2
        · exact (hlook _ e h1).1
        · rcases List.mem_singleton.mp h2 with h3
          rw [h3]; rfl
      · intro e he
        rcases List.mem_append.mp he with h1 | h2
        · exact (hlook _ e h1).2
        · rcases List.mem_singleton.mp h2 with h3
          rw [h3]; rfl
      · intro e he; cases he
      · intro e he; cases he
      · intro e he; cases he
    · split
      · rename_i x1 chals h1 x2 h2
        refine ⟨(hostList hostIn).map Ev.getCertStore
            ++ [Ev.createOrder ((hostList hostIn).filter (fun h => (get h).isNone))]
            ++ chals.flatMap (fun c => [Ev.publish c, Ev.verify c]),
          (pollLoop w.queryAns w.extraTime fuel ⟨chals, 0, 1⟩).2, [],
          by simp [List.append_assoc], ?_, ?_, ?_, ?_, ?_⟩
        · intro e he
          rcases List.mem_append.mp he with h1 | h2
          · rcases List.mem_append.mp h1 with h3 | h4
            · exact (hlook _ e h3).1
            · rcases List.mem_singleton.mp h4 with h5
              rw [h5]; rfl
          · exact (hpub _ e h2).1
        · intro e he
          rcases List.mem_append.mp he with h1 | h2
          · rcases List.mem_append.mp h1 with h3 | h4
            · exact (hlook _ e h3).2
            · rcases List.mem_singleton.mp h4 with h5
              rw [h5]; rfl
          · exact (hpub _ e h2).2
        · intro e he
          exact pollLoop_trace_query _ _ _ _ e he
        · intro e he; cases he
        · intro e he; cases he
      · rename_i x1 chals h1 x2 p h2
        refine ⟨(hostList hostIn).map Ev.getCertStore
            ++ [Ev.createOrder ((hostList hostIn).filter (fun h => (get h).isNone))]
            ++ chals.flatMap (fun c => [Ev.publish c, Ev.verify c]),
          (pollLoop w.queryAns w.extraTime fuel ⟨chals, 0, 1⟩).2,
          Ev.finalize :: (obtainCertRec w
            (existingMap get (hostList hostIn))
            ((hostList hostIn).filter (fun h => (get h).isNone)) fuel 0 5).2,
          by simp [List.append_assoc], ?_, ?_, ?_, ?_, ?_⟩
        · intro e he
          rcases List.mem_append.mp he with h1 | h2
          · rcases List.mem_append.mp h1 with h3 | h4
            · exact (hlook _ e h3).1
            · rcases List.mem_singleton.mp h4 with h5
              rw [h5]; rfl
          · exact (hpub _ e h2).1
        · intro e he
          rcases List.mem_append.mp he with h1 | h2
          · rcases List.mem_append.mp h1 with h3 | h4
            · exact (hlook _ e h3).2
            · rcases List.mem_singleton.mp h4 with h5
              rw [h5]; rfl
          · exact (hpub _ e h2).2
        · intro e he
          exact pollLoop_trace_query _ _ _ _ e he
        · intro e he
          rcases List.mem_cons.mp he with h1 | h2
          · rw [h1]; rfl
          · exact (obtainCertRec_trace w _ _ fuel 0 5 e h2).1
        · intro e he
          rcases List.mem_cons.mp he with h1 | h2
          · rw [h1]; rfl
          · exact (obtainCertRec_trace w _ _ fuel 0 5 e h2).2.1

/-- C8: in every `obtainCert` run, all challenge publications (challenge
store writes and `verify` triggers) occur strictly before every
`query_progress` poll, and every poll occurs strictly before order
finalization is submitted — so publication is never interleaved with
polling, and finalize-polling never starts before the challenge-poll loop
has ended. -/
theorem claimC8 {ι : Type} [DecidableEq ι] (w : AcmeWorld)
    (get : String → Option (ι × Nat × Nat)) (hostIn : Sum String (List String))
    (fuel : Nat) :
    (∀ i j (hi : i < (obtainCert w get hostIn fuel).2.length)
        (hj : j < (obtainCert w get hostIn fuel).2.length),
        (((obtainCert w get hostIn fuel).2)[i]).isPublish = true →
        (((obtainCert w get hostIn fuel).2)[j]).isQuery = true → i < j) ∧
    (∀ i j (hi : i < (obtainCert w get hostIn fuel).2.length)
        (hj : j < (obtainCert w get hostIn fuel).2.length),
        (((obtainCert w get hostIn fuel).2)[i]).isQuery = true →
        (((obtainCert w get hostIn fuel).2)[j]).isFinalize = true → i < j) := by
  obtain ⟨A, L, R, heq, qA, fA, hL, pR, qR⟩ :=
    obtainCert_trace_shape w get hostIn fuel
  rw [heq]
  exact before_parts A L R qA fA hL pR qR

/-- Witness for C8 on a one-domain run whose single challenge confirms on
its first query and whose order is immediately valid: publication sits at
index 2, the poll query at index 4, finalization at index 5. -/
theorem claimC8_witness :
    (((obtainCert (ι := Nat)
        ⟨9, some [5], fun _ _ => true, fun _ => 0, fun _ => .valid, 77⟩
        (fun _ => none) (Sum.inr ["m.com"]) 3).2.getD 2 Ev.finalize).isPublish
      = true) ∧
    (2 : Nat) < 4 ∧ (4 : Nat) < 5 :=
  ⟨by decide,
   (claimC8 (ι := Nat)
      ⟨9, some [5], fun _ _ => true, fun _ => 0, fun _ => .valid, 77⟩
      (fun _ => none) (Sum.inr ["m.com"]) 3).1 2 4 (by decide) (by decide)
      (by decide) (by decide),
   (claimC8 (ι := Nat)
      ⟨9, some [5], fun _ _ => true, fun _ => 0, fun _ => .valid, 77⟩
      (fun _ => none) (Sum.inr ["m.com"]) 3).2 4 5 (by decide) (by decide)
      (by decide) (by decide)⟩

/-! ## C1: cross-backend equivalence -/

/-- `fsWrite` preserves a property of all stored values when the new value
satisfies it. -/
theorem fsWrite_forall (P : Bytes → Prop) :
    ∀ (m : List (String × Bytes)) (k : String) (b : Bytes),
      (∀ e ∈ m, P e.2) → P b → ∀ e ∈ fsWrite m k b, P e.2 := by
  intro m
  induction m with
  | nil =>
    intro k b _ hb e he
    rcases List.mem_singleton.mp he with h1
    rw [h1]
    exact hb
  | cons e0 rest ih =>
    intro k b hm hb e he
    obtain ⟨k', b'⟩ := e0
    by_cases hk : k' = k
    · rw [fsWrite, if_pos hk] at he
      rcases List.mem_cons.mp he with h1 | h2
      · rw [h1]; exact hb
      · exact hm _ (List.mem_cons_of_mem _ h2)
    · rw [fsWrite, if_neg hk] at he
      rcases List.mem_cons.mp he with h1 | h2
      · rw [h1]; exact hm _ (List.mem_cons_self _ _)
      · exact ih k b (fun x hx => hm _ (List.mem_cons_of_mem _ hx)) hb _ h2

/-- A readable file stays readable after any `fsWrite`. -/
theorem fsRead_isSome_fsWrite (m : List (String × Bytes)) (k k' : String)
    (b : Bytes) (h : (fsRead m k).isSome = true) :
    (fsRead (fsWrite m k' b) k).isSome = true := by
  by_cases hk : k' = k
  · subst hk
    rw [fsRead_fsWrite_self]
    rfl
  · rw [fsRead_fsWrite_other _ _ _ _ hk]
    exact h

/-- A list element selected with a default is a member when in bounds. -/
theorem getD_mem {α : Type} :
    ∀ (l : List α) (i : Nat) (dflt : α), i < l.length → l.getD i dflt ∈ l := by
  intro l
  induction l with
  | nil => intro i dflt h; cases h
  | cons a rest ih =>
    intro i dflt h
    cases i with
    | zero => exact List.mem_cons_self _ _
    | succ n =>
      exact List.mem_cons_of_mem _ (ih n dflt (Nat.lt_of_succ_lt_succ h))

/-- Simulation invariant between a relational and a filesystem store that
have processed the same well-formed call sequence: all stored bytes are
well-formed encodings, all cross-table references resolve, the caller-held
identifiers are valid on both sides, and a domain has an index row on the
relational side exactly when its certificate (and hence key) file exists on
the filesystem side. -/
structure StoreInv (sq : SqliteState) (ids : List Nat) (fs : FsState)
    (fids : List (Option String)) : Prop where
  keysValid : ∀ p ∈ sq.private_keys, ∃ k, p.2 = key_to_der k
  certsValid : ∀ c ∈ sq.certificates, (∃ cc, c.2.2 = cert_to_der cc) ∧
    ∃ p, rowGet sq.private_keys c.2.1 = some p
  domainsValid : ∀ r ∈ sq.ssl_domains, ∃ c, rowGet sq.certificates r.2 = some c
  idsValid : ∀ i ∈ ids, ∃ p, rowGet sq.private_keys i = some p
  fsKeysValid : ∀ e ∈ fs.keys, ∃ k, e.2 = key_to_pem k
  fsCertsValid : ∀ e ∈ fs.certs, ∃ c, e.2 = cert_to_pem c
  fidsValid : ∀ f ∈ fids, ∃ b, fsRead fs.keys (pyStr f) = some b
  lenEq : ids.length = fids.length
  presence : ∀ d, (∃ cid, (d, cid) ∈ sq.ssl_domains) ↔
    (fsRead fs.certs d).isSome = true
  certImpliesKey : ∀ d, (fsRead fs.certs d).isSome = true →
    (fsRead fs.keys d).isSome = true

/-- The two freshly constructed stores satisfy the invariant. -/
theorem inv_init : StoreInv sqInit [] fsInit [] := by
  constructor
  · intro p hp
    rcases List.mem_singleton.mp hp with h1
    exact ⟨0, by rw [h1]⟩
  · intro c hc; cases hc
  · intro r hr; cases hr
  · intro i hi; cases hi
  · intro e he
    rcases List.mem_singleton.mp he with h1
    exact ⟨0, by rw [h1]⟩
  · intro e he; cases he
  · intro f hf; cases hf
  · rfl
  · intro d
    constructor
    · rintro ⟨cid, hmem⟩; cases hmem
    · intro h; cases h
  · intro d h; cases h

/-- An absent domain yields `ok none` on the relational backend. -/
theorem sqlite_get_absent (st : SqliteState) (d : String)
    (hnone : ∀ cid, (d, cid) ∉ st.ssl_domains) :
    SqliteKeyStore.get_cert st d = .ok none := by
  have hj : SqliteKeyStore.joinRow st d = none := by
    show st.ssl_domains.findSome? (SqliteKeyStore.joinOne st d) = none
    rw [List.findSome?_eq_none_iff]
    intro r hr
    by_cases hr1 : r.1 = d
    · exact absurd (show (d, r.2) ∈ st.ssl_domains by rw [← hr1]; exact hr)
        (hnone r.2)
    · exact joinOne_ne _ _ _ hr1
  show (match SqliteKeyStore.joinRow st d with
    | none => Except.ok none
    | some (cid, keyBytes, certBytes) =>
      match keyFromDer keyBytes, certFromDer certBytes with
      | some k, some c => Except.ok (some (cid, k, c))
      | _, _ => Except.error ()) = Except.ok none
  rw [hj]

/-- Under the table-validity part of the invariant, a present domain yields
`ok (some _)` on the relational backend (in particular no decode error). -/
theorem sqlite_get_present (st : SqliteState)
    (hA1 : ∀ p ∈ st.private_keys, ∃ k, p.2 = key_to_der k)
    (hA2 : ∀ c ∈ st.certificates, (∃ cc, c.2.2 = cert_to_der cc) ∧
        ∃ p, rowGet st.private_keys c.2.1 = some p)
    (hA3 : ∀ r ∈ st.ssl_domains, ∃ c, rowGet st.certificates r.2 = some c)
    (d : String) (hmem : ∃ cid, (d, cid) ∈ st.ssl_domains) :
    ∃ v, SqliteKeyStore.get_cert st d = .ok (some v) := by
  obtain ⟨cid, hmem2⟩ := hmem
  obtain ⟨c, hcr⟩ := hA3 (d, cid) hmem2
  obtain ⟨-, p, hpr⟩ := hA2 c (rowGet_mem hcr)
  have hs : (SqliteKeyStore.joinRow st d).isSome = true := by
    show (st.ssl_domains.findSome? (SqliteKeyStore.joinOne st d)).isSome = true
    rw [List.findSome?_isSome_iff]
    exact ⟨(d, cid), hmem2, by rw [joinOne_hit st d cid c p hcr hpr]; rfl⟩
  obtain ⟨v, hv⟩ := Option.isSome_iff_exists.mp hs
  have hv2 : st.ssl_domains.findSome? (SqliteKeyStore.joinOne st d) = some v := hv
  obtain ⟨r, hrmem, hfr⟩ := List.exists_of_findSome?_eq_some hv2
  obtain ⟨hr1, c2, hcr2, p2, hpr2, hveq⟩ := joinOne_inv st d r v hfr
  obtain ⟨kk, hkk⟩ := hA1 p2 (rowGet_mem hpr2)
  obtain ⟨⟨cc, hcc⟩, -⟩ := hA2 c2 (rowGet_mem hcr2)
  refine ⟨(r.2, kk, cc), ?_⟩
  show (match SqliteKeyStore.joinRow st d with
    | none => Except.ok none
    | some (cid, keyBytes, certBytes) =>
      match keyFromDer keyBytes, certFromDer certBytes with
      | some k, some c => Except.ok (some (cid, k, c))
      | _, _ => Except.error ()) = Except.ok (some (r.2, kk, cc))
  rw [hveq] at hv
  rw [hv]
  show (match keyFromDer p2.2, certFromDer c2.2.2 with
    | some k, some c => Except.ok (some (r.2, k, c))
    | _, _ => Except.error ()) = Except.ok (some (r.2, kk, cc))
  rw [hkk, hcc]
  rfl

/-- Under the value-validity part of the invariant, the filesystem lookup
succeeds exactly when the domain's certificate file exists. -/
theorem fs_get_present_iff (fs : FsState)
    (hB1 : ∀ e ∈ fs.keys, ∃ k, e.2 = key_to_pem k)
    (hB2 : ∀ e ∈ fs.certs, ∃ c, e.2 = cert_to_pem c)
    (hD2 : ∀ d, (fsRead fs.certs d).isSome = true →
        (fsRead fs.keys d).isSome = true)
    (d : String) : fsHas fs d = (fsRead fs.certs d).isSome := by
  unfold fsHas
  cases hc : fsRead fs.certs d with
  | none =>
    show (FilesystemKeyStore.get_cert fs d).isSome = false
    have : FilesystemKeyStore.get_cert fs d = none := by
      show (match (match fsRead fs.keys d with
              | some b => keyFromPem b
              | none => none),
            (match fsRead fs.certs d with
              | some b => certFromPem b
              | none => none) with
        | some k, some c => some (d, k, c)
        | _, _ => none) = none
      rw [hc]
      cases (match fsRead fs.keys d with
          | some b => keyFromPem b
          | none => none : Option Nat) with
      | none => rfl
      | some k => rfl
    rw [this]
    rfl
  | some b =>
    obtain ⟨cc, hcb⟩ := hB2 (d, b) (fsRead_mem hc)
    have hkeysome := hD2 d (by rw [hc]; rfl)
    obtain ⟨bk, hbk⟩ := Option.isSome_iff_exists.mp hkeysome
    obtain ⟨kk, hkb⟩ := hB1 (d, bk) (fsRead_mem hbk)
    have : FilesystemKeyStore.get_cert fs d = some (d, kk, cc) := by
      show (match (match fsRead fs.keys d with
              | some b => keyFromPem b
              | none => none),
            (match fsRead fs.certs d with
              | some b => certFromPem b
              | none => none) with
        | some k, some c => some (d, k, c)
        | _, _ => none) = some (d, kk, cc)
      rw [hc, hbk]
      show (match keyFromPem bk, certFromPem b with
        | some k, some c => some (d, k, c)
        | _, _ => none) = some (d, kk, cc)
      rw [show bk = key_to_pem kk from hkb, show b = cert_to_pem cc from hcb]
      rfl
    rw [this]
    rfl

/-- The invariant yields observational equivalence of `get_cert`
absent-vs-present behaviour, with no exception on the relational side. -/
theorem inv_presence {sq : SqliteState} {ids : List Nat} {fs : FsState}
    {fids : List (Option String)} (inv : StoreInv sq ids fs fids) (d : String) :
    sqHas sq d = fsHas fs d ∧ SqliteKeyStore.get_cert sq d ≠ .error () := by
  by_cases hp : ∃ cid, (d, cid) ∈ sq.ssl_domains
  · obtain ⟨v, hv⟩ := sqlite_get_present sq inv.keysValid inv.certsValid
      inv.domainsValid d hp
    have hfs : (fsRead fs.certs d).isSome = true := (inv.presence d).mp hp
    constructor
    · rw [fs_get_present_iff fs inv.fsKeysValid inv.fsCertsValid
        inv.certImpliesKey d, hfs]
      unfold sqHas
      rw [hv]
    · rw [hv]
      intro hcontra
      cases hcontra
  · have hnone : ∀ cid, (d, cid) ∉ sq.ssl_domains := fun cid hm => hp ⟨cid, hm⟩
    have hv := sqlite_get_absent sq d hnone
    have hfs : (fsRead fs.certs d).isSome = false := by
      cases hb : (fsRead fs.certs d).isSome with
      | false => rfl
      | true => exact absurd ((inv.presence d).mpr hb) hp
    constructor
    · rw [fs_get_present_iff fs inv.fsKeysValid inv.fsCertsValid
        inv.certImpliesKey d, hfs]
      unfold sqHas
      rw [hv]
    · rw [hv]
      intro hcontra
      cases hcontra

/-- The per-domain write loop preserves value-validity of both directories
when the copied key bytes and certificate bytes are themselves valid. -/
theorem saveCertLoop_forall (P Q : Bytes → Prop) (pid : Option String)
    (kc cb : Bytes) (hkc : P kc) (hcb : Q cb) :
    ∀ (ds : List String) (st : FsState),
      (∀ e ∈ st.keys, P e.2) → (∀ e ∈ st.certs, Q e.2) →
      (∀ e ∈ (FilesystemKeyStore.saveCertLoop pid kc cb ds st).keys, P e.2) ∧
      (∀ e ∈ (FilesystemKeyStore.saveCertLoop pid kc cb ds st).certs, Q e.2) := by
  intro ds
  induction ds with
  | nil => intro st hk hc; exact ⟨hk, hc⟩
  | cons d0 rest ih =>
    intro st hk hc
    simp only [FilesystemKeyStore.saveCertLoop]
    refine ih _ ?_ ?_
    · by_cases hpid : pid = some d0
      · rw [if_pos hpid]; exact hk
      · rw [if_neg hpid]; exact fsWrite_forall P st.keys d0 kc hk hkc
    · exact fsWrite_forall Q st.certs d0 cb hc hcb

/-- Processing one `saveKey` call preserves the simulation invariant. -/
theorem inv_saveKey {sq : SqliteState} {ids : List Nat} {fs : FsState}
    {fids : List (Option String)} (inv : StoreInv sq ids fs fids)
    (key : Nat) (name : Option String) :
    StoreInv (SqliteKeyStore.save_key sq key name).1
      (ids ++ [(SqliteKeyStore.save_key sq key name).2])
      (FilesystemKeyStore.save_key fs key name).1
      (fids ++ [(FilesystemKeyStore.save_key fs key name).2]) := by
  constructor
  · intro p hp
    rcases List.mem_append.mp hp with h1 | h2
    · exact inv.keysValid p h1
    · rcases List.mem_singleton.mp h2 with h3
      exact ⟨key, by rw [h3]⟩
  · intro c hc
    obtain ⟨hder, p, hpr⟩ := inv.certsValid c hc
    exact ⟨hder, p, rowGet_append _ hpr⟩
  · intro r hr
    exact inv.domainsValid r hr
  · intro i hi
    rcases List.mem_append.mp hi with h1 | h2
    · obtain ⟨p, hpr⟩ := inv.idsValid i h1
      exact ⟨p, rowGet_append _ hpr⟩
    · rcases List.mem_singleton.mp h2 with h3
      refine ⟨(name, key_to_der key), ?_⟩
      rw [h3]
      exact rowGet_append_last sq.private_keys (name, key_to_der key)
  · show ∀ e ∈ fsWrite fs.keys (pyStr name) (key_to_pem key), ∃ k, e.2 = key_to_pem k
    exact fsWrite_forall (fun b => ∃ k, b = key_to_pem k) fs.keys (pyStr name)
      (key_to_pem key) inv.fsKeysValid ⟨key, rfl⟩
  · intro e he
    exact inv.fsCertsValid e he
  · intro f hf
    show ∃ b, fsRead (fsWrite fs.keys (pyStr name) (key_to_pem key)) (pyStr f) = some b
    rcases List.mem_append.mp hf with h1 | h2
    · obtain ⟨b, hb⟩ := inv.fidsValid f h1
      by_cases hk : pyStr name = pyStr f
      · rw [← hk, fsRead_fsWrite_self]
        exact ⟨key_to_pem key, rfl⟩
      · rw [fsRead_fsWrite_other _ _ _ _ hk]
        exact ⟨b, hb⟩
    · have h4 : pyStr f = pyStr name := by
        rw [List.mem_singleton.mp h2]
        rfl
      rw [h4, fsRead_fsWrite_self]
      exact ⟨key_to_pem key, rfl⟩
  · rw [List.length_append, List.length_append, inv.lenEq]
    rfl
  · intro d
    exact inv.presence d
  · intro d h
    show (fsRead (fsWrite fs.keys (pyStr name) (key_to_pem key)) d).isSome = true
    exact fsRead_isSome_fsWrite _ _ _ _ (inv.certImpliesKey d h)

/-- Processing one well-formed `saveCert` call succeeds on the filesystem
backend and preserves the simulation invariant. -/
theorem inv_saveCert {sq : SqliteState} {ids : List Nat} {fs : FsState}
    {fids : List (Option String)} (inv : StoreInv sq ids fs fids)
    (i cert : Nat) (ds : List String) (hi : i < ids.length) (hds : ds ≠ []) :
    ∃ fs2 rid, FilesystemKeyStore.save_cert fs (fids.getD i none) cert ds none
        = some (fs2, rid) ∧
      StoreInv (SqliteKeyStore.save_cert sq (ids.getD i 0) cert ds none).1
        ids fs2 fids := by
  have hi2 : i < fids.length := by rw [← inv.lenEq]; exact hi
  have hfidmem : fids.getD i none ∈ fids := getD_mem fids i none hi2
  obtain ⟨b, hb⟩ := inv.fidsValid _ hfidmem
  obtain ⟨kk, hkb⟩ := inv.fsKeysValid _ (fsRead_mem hb)
  have hb2 : fsRead fs.keys (pyStr (fids.getD i none)) = some (key_to_pem kk) := by
    rw [hb, show b = key_to_pem kk from hkb]
  have hidmem : ids.getD i 0 ∈ ids := getD_mem ids i 0 hi
  obtain ⟨prow, hprow⟩ := inv.idsValid _ hidmem
  cases ds with
  | nil => exact absurd rfl hds
  | cons d0 rest =>
    refine ⟨FilesystemKeyStore.saveCertLoop (fids.getD i none) (key_to_pem kk)
        (cert_to_pem cert) (d0 :: rest) fs, some d0, ?_, ?_⟩
    · unfold FilesystemKeyStore.save_cert
      rw [hb2]
    · constructor
      · intro p hp
        exact inv.keysValid p hp
      · intro c hc
        rcases List.mem_append.mp hc with h1 | h2
        · obtain ⟨hder, p, hpr⟩ := inv.certsValid c h1
          exact ⟨hder, p, hpr⟩
        · rcases List.mem_singleton.mp h2 with h3
          refine ⟨⟨cert, by rw [h3]⟩, prow, ?_⟩
          rw [h3]
          exact hprow
      · intro r hr
        rcases List.mem_append.mp hr with h1 | h2
        · obtain ⟨c, hcr⟩ := inv.domainsValid r h1
          exact ⟨c, rowGet_append _ hcr⟩
        · obtain ⟨d2, hd2, hr2⟩ := List.mem_map.mp h2
          refine ⟨(none, ids.getD i 0, cert_to_der cert), ?_⟩
          rw [← hr2]
          exact rowGet_append_last sq.certificates _
      · intro j hj
        exact inv.idsValid j hj
      · exact (saveCertLoop_forall (fun b2 => ∃ k, b2 = key_to_pem k)
          (fun b2 => ∃ c, b2 = cert_to_pem c) _ _ _ ⟨kk, rfl⟩ ⟨cert, rfl⟩
          (d0 :: rest) fs inv.fsKeysValid inv.fsCertsValid).1
      · exact (saveCertLoop_forall (fun b2 => ∃ k, b2 = key_to_pem k)
          (fun b2 => ∃ c, b2 = cert_to_pem c) _ _ _ ⟨kk, rfl⟩ ⟨cert, rfl⟩
          (d0 :: rest) fs inv.fsKeysValid inv.fsCertsValid).2
      · intro f hf
        by_cases hcond : pyStr f ∈ d0 :: rest
            ∧ fids.getD i none ≠ some (pyStr f)
        · exact ⟨key_to_pem kk, by rw [saveCertLoop_keys, if_pos hcond]⟩
        · obtain ⟨bf, hbf⟩ := inv.fidsValid f hf
          exact ⟨bf, by rw [saveCertLoop_keys, if_neg hcond]; exact hbf⟩
      · exact inv.lenEq
      · intro d2
        constructor
        · rintro ⟨cid, hmem⟩
          rcases List.mem_append.mp hmem with h1 | h2
          · have hold := (inv.presence d2).mp ⟨cid, h1⟩
            rw [saveCertLoop_certs]
            by_cases hd2 : d2 ∈ d0 :: rest
            · rw [if_pos hd2]; rfl
            · rw [if_neg hd2]; exact hold
          · obtain ⟨d3, hd3, he⟩ := List.mem_map.mp h2
            have hd2in : d2 ∈ d0 :: rest := by
              have h4 : d3 = d2 := congrArg Prod.fst he
              rw [← h4]
              exact hd3
            rw [saveCertLoop_certs, if_pos hd2in]
            rfl
        · intro hsome
          rw [saveCertLoop_certs] at hsome
          by_cases hd2 : d2 ∈ d0 :: rest
          · exact ⟨sq.certificates.length + 1, List.mem_append.mpr (Or.inr
              (List.mem_map.mpr ⟨d2, hd2, rfl⟩))⟩
          · rw [if_neg hd2] at hsome
            obtain ⟨cid, hcid⟩ := (inv.presence d2).mpr hsome
            exact ⟨cid, List.mem_append.mpr (Or.inl hcid)⟩
      · intro d2 hcert
        rw [saveCertLoop_certs] at hcert
        rw [saveCertLoop_keys]
        by_cases hd2 : d2 ∈ d0 :: rest
        · by_cases hpid : fids.getD i none = some d2
          · rw [if_neg (fun hand => hand.2 hpid)]
            have hkeyd2 : fsRead fs.keys d2 = some (key_to_pem kk) := by
              rw [show d2 = pyStr (fids.getD i none) by rw [hpid]; rfl]
              exact hb2
            rw [hkeyd2]
            rfl
          · rw [if_pos ⟨hd2, hpid⟩]
            rfl
        · rw [if_neg hd2] at hcert
          rw [if_neg (fun hand => hd2 hand.1)]
          exact inv.certImpliesKey d2 hcert

/-- Running a well-formed call sequence on both backends keeps them in
simulation: the filesystem run never raises and the invariant carries
through. -/
theorem runBoth :
    ∀ (prog : List Cmd) (sq : SqliteState) (ids : List Nat) (fs : FsState)
      (fids : List (Option String)),
      StoreInv sq ids fs fids → wfProg ids.length prog = true →
      ∃ fs2 fids2, runFs prog fs fids = some (fs2, fids2) ∧
        StoreInv (runSq prog sq ids).1 (runSq prog sq ids).2 fs2 fids2 := by
  intro prog
  induction prog with
  | nil =>
    intro sq ids fs fids inv _
    exact ⟨fs, fids, rfl, inv⟩
  | cons cmd rest ih =>
    intro sq ids fs fids inv hwf
    cases cmd with
    | saveKey n k =>
      rw [wfProg] at hwf
      have inv2 := inv_saveKey inv k n
      simp only [runSq, runFs]
      exact ih _ _ _ _ inv2 (by
        rw [List.length_append]
        exact hwf)
    | saveCert i c ds =>
      rw [wfProg, Bool.and_eq_true, Bool.and_eq_true] at hwf
      obtain ⟨⟨hi0, hne0⟩, hrest⟩ := hwf
      have hi : i < ids.length := of_decide_eq_true hi0
      have hds : ds ≠ [] := by
        intro hh
        rw [hh] at hne0
        cases hne0
      obtain ⟨fs2, rid, hfs, inv2⟩ := inv_saveCert inv i c ds hi hds
      simp only [runSq, runFs, hfs]
      exact ih _ _ _ _ inv2 hrest

/-- C1 (amended): (1) for every well-formed call sequence — each `save_cert`
referencing an earlier `save_key`, passing a non-empty domain list and no
certificate name — the two backends agree on absent-vs-present for every
domain, the filesystem run never raises, and the relational `get_cert`
never raises; but the identifier behaviour differs: (2) the filesystem
backend's `get_cert` returns the queried domain itself as the certificate
identifier, while (3) the relational backend returns one shared identifier
for all fresh domains of one `save_cert` call, and (4) response assembly
merges entries sharing one identifier into a single bundle whose domain
list is the union — so multi-domain certificates are reported merged only
on the relational backend (see the counterexample). -/
theorem claimC1 :
    (∀ (prog : List Cmd), wfProg 0 prog = true →
      (runFs prog fsInit []).isSome = true ∧
      ∀ fs2 fids2, runFs prog fsInit [] = some (fs2, fids2) →
        ∀ d, sqHas (runSq prog sqInit []).1 d = fsHas fs2 d ∧
          SqliteKeyStore.get_cert (runSq prog sqInit []).1 d ≠ .error ()) ∧
    (∀ (st : FsState) (d i : String) (k c : Nat),
      FilesystemKeyStore.get_cert st d = some (i, k, c) → i = d) ∧
    (∀ (st : SqliteState) (kid key cert : Nat) (ds : List String)
        (name nm : Option String) (d d' : String),
      rowGet st.private_keys kid = some (nm, key_to_der key) →
      d ∈ ds → d' ∈ ds →
      (∀ cid, (d, cid) ∉ st.ssl_domains) →
      (∀ cid, (d', cid) ∉ st.ssl_domains) →
      SqliteKeyStore.get_cert (SqliteKeyStore.save_cert st kid cert ds name).1 d
        = SqliteKeyStore.get_cert
            (SqliteKeyStore.save_cert st kid cert ds name).1 d') ∧
    (∀ {ι : Type} [DecidableEq ι] (id : ι) (k c : Nat) (h0 : String)
        (t : List String),
      (createExistingResponse ((h0 :: t).map (fun h => (h, id, k, c))) []).existing
        = [⟨key_to_pem k, cert_to_pem c, h0 :: t⟩]) := by
  refine ⟨?_, ?_, ?_, ?_⟩
  · intro prog hwf
    obtain ⟨fs2, fids2, hfs, inv⟩ := runBoth prog sqInit [] fsInit [] inv_init hwf
    constructor
    · rw [hfs]; rfl
    · intro fs3 fids3 hfs3 d
      rw [hfs] at hfs3
      injection hfs3 with h3
      have h4 : fs2 = fs3 := congrArg Prod.fst h3
      rw [← h4]
      exact inv_presence inv d
  · intro st d i k c h
    change (match (match fsRead st.keys d with
          | some b => keyFromPem b
          | none => none),
        (match fsRead st.certs d with
          | some b => certFromPem b
          | none => none) with
      | some k2, some c2 => some (d, k2, c2)
      | _, _ => none) = some (i, k, c) at h
    cases hk : (match fsRead st.keys d with
        | some b => keyFromPem b
        | none => none : Option Nat) with
    | none =>
      rw [hk] at h
      exact Option.noConfusion h
    | some k2 =>
      rw [hk] at h
      cases hc : (match fsRead st.certs d with
          | some b => certFromPem b
          | none => none : Option Nat) with
      | none =>
        rw [hc] at h
        exact Option.noConfusion h
      | some c2 =>
        rw [hc] at h
        change some (d, k2, c2) = some (i, k, c) at h
        exact (congrArg Prod.fst (Option.some.inj h)).symm
  · intro st kid key cert ds name nm d d' hkey hd hd' hfresh hfresh'
    rw [sqlite_roundtrip st kid key cert ds name nm d hkey hd hfresh,
      sqlite_roundtrip st kid key cert ds name nm d' hkey hd' hfresh']
  · intro ι instD id k c h0 t
    show (buildCertMap [] ((h0 :: t).map (fun h => (h, id, k, c)))).map
        (fun g => (⟨g.2.2.1, g.2.2.2, g.2.1⟩ : IssuedCert))
      = [⟨key_to_pem k, cert_to_pem c, h0 :: t⟩]
    have huni : ∀ (rest : List String) (hs0 : List String),
        buildCertMap [(id, hs0, key_to_pem k, cert_to_pem c)]
            (rest.map (fun h => (h, id, k, c)))
          = [(id, hs0 ++ rest, key_to_pem k, cert_to_pem c)] := by
      intro rest
      induction rest with
      | nil => intro hs0; simp [buildCertMap]
      | cons h1 t1 ih =>
        intro hs0
        show buildCertMap (upsertGroup [(id, hs0, key_to_pem k, cert_to_pem c)]
            id h1 (key_to_pem k) (cert_to_pem c)) (t1.map (fun h => (h, id, k, c)))
          = _
        rw [show upsertGroup [(id, hs0, key_to_pem k, cert_to_pem c)] id h1
            (key_to_pem k) (cert_to_pem c)
            = [(id, hs0 ++ [h1], key_to_pem k, cert_to_pem c)] by
          simp [upsertGroup]]
        rw [ih (hs0 ++ [h1])]
        simp
    simp only [List.map_cons, buildCertMap, upsertGroup]
    rw [huni t [h0]]
    simp

/-- C1 (counterexample): running the same well-formed call sequence (save a
key, then one `save_cert` covering `"a.com"` and `"b.com"`) on both
backends, the relational backend returns the same identifier 1 for both
domains while the filesystem backend returns each queried domain as its own
identifier, so response assembly merges the two domains into ONE bundle on
the relational backend but reports TWO bundles on the filesystem backend;
moreover, with a certificate name `"x"`, the filesystem backend makes
`get_cert "x"` present while the relational backend reports it absent — the
two backends are not observably equivalent as claimed. -/
theorem claimC1_cex :
    (SqliteKeyStore.get_cert (runSq [Cmd.saveKey (some "k") 1,
        Cmd.saveCert 0 5 ["a.com", "b.com"]] sqInit []).1 "a.com"
      = .ok (some (1, 1, 5))) ∧
    (SqliteKeyStore.get_cert (runSq [Cmd.saveKey (some "k") 1,
        Cmd.saveCert 0 5 ["a.com", "b.com"]] sqInit []).1 "b.com"
      = .ok (some (1, 1, 5))) ∧
    ((runFs [Cmd.saveKey (some "k") 1, Cmd.saveCert 0 5 ["a.com", "b.com"]]
        fsInit []).map (fun r => FilesystemKeyStore.get_cert r.1 "a.com")
      = some (some ("a.com", 1, 5))) ∧
    ((runFs [Cmd.saveKey (some "k") 1, Cmd.saveCert 0 5 ["a.com", "b.com"]]
        fsInit []).map (fun r => FilesystemKeyStore.get_cert r.1 "b.com")
      = some (some ("b.com", 1, 5))) ∧
    ("a.com" ≠ "b.com") ∧
    ((createExistingResponse
        [("a.com", ((1 : Nat), 1, 5)), ("b.com", (1, 1, 5))] []).existing.length
      = 1) ∧
    ((createExistingResponse
        [("a.com", ("a.com", (1 : Nat), 5)),
         ("b.com", ("b.com", 1, 5))] []).existing.length = 2) ∧
    (SqliteKeyStore.get_cert
        (SqliteKeyStore.save_cert (SqliteKeyStore.save_key sqInit 3 (some "x")).1
          (SqliteKeyStore.save_key sqInit 3 (some "x")).2 7 ["d.com"]
          (some "x")).1 "x" = .ok none) ∧
    ((FilesystemKeyStore.save_cert
        (FilesystemKeyStore.save_key fsInit 3 (some "x")).1 (some "x") 7
        ["d.com"] (some "x")).map
        (fun r => (FilesystemKeyStore.get_cert r.1 "x").isSome) = some true) := by
  decide

/-- Witness for C1: the amended equivalence applied to the concrete
two-domain sequence, the fs-identifier law at a one-entry store, the shared
relational identifier on a fresh two-domain save, and the grouping law on a
two-host list. -/
theorem claimC1_witness :
    ((runFs [Cmd.saveKey (some "k") 1, Cmd.saveCert 0 5 ["a.com", "b.com"]]
        fsInit []).isSome = true) ∧
    (sqHas (runSq [Cmd.saveKey (some "k") 1, Cmd.saveCert 0 5 ["a.com", "b.com"]]
          sqInit []).1 "a.com"
        = fsHas ⟨[("acme_account", key_to_pem 0), ("k", key_to_pem 1),
            ("a.com", key_to_pem 1), ("b.com", key_to_pem 1)],
           [("a.com", cert_to_pem 5), ("b.com", cert_to_pem 5)]⟩ "a.com" ∧
      SqliteKeyStore.get_cert (runSq [Cmd.saveKey (some "k") 1,
          Cmd.saveCert 0 5 ["a.com", "b.com"]] sqInit []).1 "a.com"
        ≠ .error ()) ∧
    ("z" = "z") ∧
    (SqliteKeyStore.get_cert
        (SqliteKeyStore.save_cert ⟨[(none, key_to_der 1)], [], []⟩
          1 5 ["a.com", "b.com"] none).1 "a.com"
      = SqliteKeyStore.get_cert
        (SqliteKeyStore.save_cert ⟨[(none, key_to_der 1)], [], []⟩
          1 5 ["a.com", "b.com"] none).1 "b.com") ∧
    ((createExistingResponse (["a", "b"].map (fun h => (h, (1 : Nat), 2, 3)))
        []).existing = [⟨key_to_pem 2, cert_to_pem 3, ["a", "b"]⟩]) :=
  ⟨(claimC1.1 [Cmd.saveKey (some "k") 1, Cmd.saveCert 0 5 ["a.com", "b.com"]]
      (by decide)).1,
   (claimC1.1 [Cmd.saveKey (some "k") 1, Cmd.saveCert 0 5 ["a.com", "b.com"]]
      (by decide)).2
      ⟨[("acme_account", key_to_pem 0), ("k", key_to_pem 1),
        ("a.com", key_to_pem 1), ("b.com", key_to_pem 1)],
       [("a.com", cert_to_pem 5), ("b.com", cert_to_pem 5)]⟩
      [some "k"] rfl "a.com",
   claimC1.2.1 ⟨[("z", key_to_pem 1)], [("z", cert_to_pem 2)]⟩ "z" "z" 1 2 rfl,
   claimC1.2.2.1 ⟨[(none, key_to_der 1)], [], []⟩ 1 1 5 ["a.com", "b.com"]
      none none "a.com" "b.com" rfl (by decide) (by decide)
      (fun cid h => by cases h) (fun cid h => by cases h),
   claimC1.2.2.2 1 2 3 "a" ["b"]⟩
